import Mathlib

/-!
Verification development for the `layout` library (a tree layout engine).

The TypeScript sources hold two near-duplicate revisions per file; claims
cite the second revision of `src/unnamed/part_001` (called `P1` here) and
the second revision of `src/src/LayoutBase.ts` (called `LB` here).  The two
revisions share `update`, `setDirty` and the flex-arrangement algorithm
verbatim; they differ in the size getters (`P1` has `fill`/`anchor`
support, `LB` does not) and in `setWidth`/`setHeight`.

Numbers are modelled as rationals `ℚ` (JS numbers used by the engine on
the code paths below stay within exact arithmetic: sums, differences,
`Math.floor`, and halving).
-/

namespace Layout

/-- Flex mode of an element (`"none" | "horizontal" | "vertical"`). -/
inductive FlexMode where
  | none | horizontal | vertical
deriving DecidableEq, Repr

/-- Horizontal alignment (`"left" | "right" | "center"`). -/
inductive HAlign where
  | left | right | center
deriving DecidableEq, Repr

/-- Vertical alignment (`"top" | "bottom" | "middle"`). -/
inductive VAlign where
  | top | bottom | middle
deriving DecidableEq, Repr

/-!
## Flex arrangement (claims C1, C2)

Embedding of `resolveLayout` (LB lines 793-864, P1 lines 1215-1286; the
horizontal branch is cited by the claims).  The container is modelled as a
snapshot at the moment `resolveLayout` runs: per child, the value its
main-axis size getter (`element.width`) yields during the pass (the getter
memoizes, so it is one stable number per child within the pass), its
margins, declared offsets, `flexGrow`, and the two eligibility flags.
-/

/-- A child of a flex container, as seen by `resolveLayout`. -/
structure FlexChild where
  /-- Value of the child's `width` getter (pre-growth main-axis size). -/
  width : ℚ
  /-- Value of the child's `height` getter (cross-axis size). -/
  height : ℚ
  marginLeft : ℚ := 0
  marginRight : ℚ := 0
  marginTop : ℚ := 0
  marginBottom : ℚ := 0
  /-- Declared `top` offset. -/
  top : ℚ := 0
  /-- Declared `left` offset. -/
  left : ℚ := 0
  flexGrow : ℚ := 0
  enabled : Bool := true
  ignoreLayout : Bool := false
deriving DecidableEq, Repr

/-- A horizontal flex container, as seen by `resolveLayout`. -/
structure FlexContainer where
  /-- The container's `innerWidth` (main axis). -/
  innerWidth : ℚ
  /-- The container's `innerHeight` (cross axis). -/
  innerHeight : ℚ
  flexHorizontalAlign : HAlign := .left
  flexVerticalAlign : VAlign := .top
  /-- Whether the container is enabled (read by the alignment pass). -/
  enabled : Bool := true
  children : List FlexChild
deriving DecidableEq, Repr

/-- `element.outerWidth = element.width + margin.left + margin.right`
(LB lines 1281-1283). -/
def FlexChild.outerWidth (c : FlexChild) : ℚ :=
  c.width + c.marginLeft + c.marginRight

/-- Eligibility predicate used by `childrenWidth` and the placement loop:
the child is skipped iff `element._ignoreLayout || !element._enabled`. -/
def FlexChild.eligible (c : FlexChild) : Bool :=
  c.enabled && !c.ignoreLayout

/-- `growCount` as computed by the source (LB line 798 / P1 line 1220):
`this.children.reduce((v, e) => v + (e._enabled ? e._flexGrow : 0), 0)`.
Note: only `_enabled` is tested; `_ignoreLayout` is not. -/
def growCount (cs : List FlexChild) : ℚ :=
  cs.foldl (fun v e => v + (if e.enabled then e.flexGrow else 0)) 0

/-- `growCount` as the specification words it: the sum of `flexGrow` over
children that are enabled *and* not `ignoreLayout`. -/
def growCountSpec (cs : List FlexChild) : ℚ :=
  cs.foldl (fun v e => v + (if e.eligible then e.flexGrow else 0)) 0

/-- `childrenWidth` (LB lines 761-769): sum of eligible children's
outer widths. -/
def childrenWidth (cs : List FlexChild) : ℚ :=
  cs.foldl
    (fun v e => v + (if e.ignoreLayout || !e.enabled then 0 else e.outerWidth)) 0

/-- Result of the placement loop for one eligible child. -/
structure Placed where
  /-- `element._cachedWidth` after the pass (pre-growth width for
  non-growers; `element.width + amount` for growers). -/
  newWidth : ℚ
  /-- Growth amount applied (`0` for non-growers). -/
  amount : ℚ
  /-- `element._cachedTop` after the placement loop. -/
  cachedTop : ℚ
  /-- `element._cachedLeft` after the placement loop. -/
  cachedLeft : ℚ
deriving DecidableEq, Repr

/-- State threaded through the placement loop: the running `growCount`,
`growPool` and `xOffset` variables. -/
structure LoopState where
  growCount : ℚ
  growPool : ℚ
  xOffset : ℚ
deriving DecidableEq, Repr

/-- One iteration of the placement loop (LB lines 807-822).  Returns the
placement record (`none` for skipped children) and the updated state. -/
def placeStep (growFactor : ℚ) (st : LoopState) (e : FlexChild) :
    Option Placed × LoopState :=
  if !e.enabled || e.ignoreLayout then
    (none, st)
  else
    -- `if (element._flexGrow)` is JS truthiness: any non-zero value.
    let (w, amount, gc, gp) :=
      if e.flexGrow ≠ 0 then
        let amount : ℚ :=
          if st.growCount > 1 then (⌊growFactor * e.flexGrow⌋ : ℤ) else st.growPool
        (e.width + amount, amount, st.growCount - 1, st.growPool - amount)
      else
        (e.width, 0, st.growCount, st.growPool)
    let p : Placed :=
      { newWidth := w, amount := amount
        cachedTop := e.top
        cachedLeft := st.xOffset + e.left }
    -- `xOffset += element.outerWidth` re-reads the getter, which now
    -- returns the cached post-growth width.
    (some p, { growCount := gc, growPool := gp,
               xOffset := st.xOffset + (w + e.marginLeft + e.marginRight) })

/-- The placement loop over all children. -/
def placeLoop (growFactor : ℚ) : LoopState → List FlexChild →
    List (Option Placed) × LoopState
  | st, [] => ([], st)
  | st, e :: es =>
    let (p, st') := placeStep growFactor st e
    let (ps, stFin) := placeLoop growFactor st' es
    (p :: ps, stFin)

/-- The horizontal branch of `resolveLayout` (LB lines 799-830), run on a
container that is not `layoutReady` and has `flexMode == "horizontal"`.
Returns the per-child placement results (before the cross-axis alignment
pass) together with the final loop state. -/
def resolveLayoutH (c : FlexContainer) : List (Option Placed) × LoopState :=
  let growCount0 := growCount c.children
  let growPool0 := c.innerWidth - childrenWidth c.children
  -- `let xOffset = 0` (second revisions start at 0, not at padding.left).
  let xOffset0 : ℚ :=
    if growCount0 = 0 ∧ c.flexHorizontalAlign ≠ .left then
      if c.flexHorizontalAlign = .center then growPool0 / 2 else growPool0
    else 0
  let growFactor := if growCount0 ≠ 0 then growPool0 / growCount0 else 0
  placeLoop growFactor
    { growCount := growCount0, growPool := growPool0, xOffset := xOffset0 }
    c.children

/-- Sum of the placed children's outer main-axis sizes after the
arrangement pass: post-growth cached width plus margins, over exactly the
children the loop placed. -/
def placedOuterSum : List (Option Placed) → List FlexChild → ℚ
  | some p :: ps, e :: es =>
    (p.newWidth + e.marginLeft + e.marginRight) + placedOuterSum ps es
  | none :: ps, _ :: es => placedOuterSum ps es
  | _, _ => 0

/-- Sum of the eligible children's outer main-axis sizes after the
arrangement pass for a container. -/
def sumOuterAfter (c : FlexContainer) : ℚ :=
  placedOuterSum (resolveLayoutH c).1 c.children

/-- The growth amounts handed out by the placement loop, in child order,
one entry per placed growing child. -/
def growerAmounts : List (Option Placed) → List FlexChild → List ℚ
  | some p :: ps, e :: es =>
    if e.flexGrow ≠ 0 then p.amount :: growerAmounts ps es
    else growerAmounts ps es
  | none :: ps, _ :: es => growerAmounts ps es
  | _, _ => []

/-- Number of enabled children with non-zero `flexGrow` (the children the
running `growCount` counts down over when every such child has
`flexGrow = 1`). -/
def ngrow (cs : List FlexChild) : ℕ :=
  cs.countP (fun e => e.enabled && decide (e.flexGrow ≠ 0))

/-! ### Fold helpers -/

theorem foldl_add_shift {α : Type*} (g : α → ℚ) (l : List α) (a : ℚ) :
    l.foldl (fun v e => v + g e) a = a + l.foldl (fun v e => v + g e) 0 := by
  induction l generalizing a with
  | nil => simp
  | cons e es ih =>
    simp only [List.foldl_cons]
    rw [ih (a + g e), ih (0 + g e)]
    ring

theorem growCount_cons (e : FlexChild) (es : List FlexChild) :
    growCount (e :: es) =
      (if e.enabled then e.flexGrow else 0) + growCount es := by
  unfold growCount
  simp only [List.foldl_cons]
  rw [foldl_add_shift]
  ring

theorem childrenWidth_cons (e : FlexChild) (es : List FlexChild) :
    childrenWidth (e :: es) =
      (if e.ignoreLayout || !e.enabled then 0 else e.outerWidth)
        + childrenWidth es := by
  unfold childrenWidth
  simp only [List.foldl_cons]
  rw [foldl_add_shift]
  ring

theorem growCountSpec_cons (e : FlexChild) (es : List FlexChild) :
    growCountSpec (e :: es) =
      (if e.eligible then e.flexGrow else 0) + growCountSpec es := by
  unfold growCountSpec
  simp only [List.foldl_cons]
  rw [foldl_add_shift]
  ring

/-- Under the all-growers-have-weight-one hypothesis, the source's
`growCount` equals the number of enabled growing children. -/
theorem growCount_eq_ngrow (cs : List FlexChild)
    (h : ∀ e ∈ cs, e.enabled = true → e.flexGrow ≠ 0 → e.flexGrow = 1) :
    growCount cs = (ngrow cs : ℚ) := by
  induction cs with
  | nil => simp [growCount, ngrow]
  | cons e es ih =>
    have he := h e (by simp)
    have ihe : growCount es = (ngrow es : ℚ) :=
      ih fun x hx => h x (List.mem_cons_of_mem _ hx)
    rw [growCount_cons, ihe]
    unfold ngrow
    rw [List.countP_cons]
    by_cases hen : e.enabled
    · by_cases hg : e.flexGrow = 0
      · simp [hen, hg, ngrow]
      · have h1 := he hen hg
        simp [hen, hg, h1, ngrow]
        ring
    · simp [hen, ngrow, Bool.not_eq_true _ ▸ hen]

end Layout

namespace Layout

/-! ### Placement step case lemmas -/

theorem placeStep_skip (gf : ℚ) (st : LoopState) (e : FlexChild)
    (h : (!e.enabled || e.ignoreLayout) = true) :
    placeStep gf st e = (none, st) := by
  simp [placeStep, h]

theorem placeStep_noGrowChild (gf : ℚ) (st : LoopState) (e : FlexChild)
    (h : (!e.enabled || e.ignoreLayout) = false) (hg : e.flexGrow = 0) :
    placeStep gf st e =
      (some { newWidth := e.width, amount := 0,
              cachedTop := e.top, cachedLeft := st.xOffset + e.left },
       { growCount := st.growCount, growPool := st.growPool,
         xOffset := st.xOffset + (e.width + e.marginLeft + e.marginRight) }) := by
  simp [placeStep, h, hg]

theorem placeStep_grower_mid (gf : ℚ) (st : LoopState) (e : FlexChild)
    (h : (!e.enabled || e.ignoreLayout) = false) (hg : e.flexGrow ≠ 0)
    (hc : st.growCount > 1) :
    placeStep gf st e =
      (some { newWidth := e.width + (⌊gf * e.flexGrow⌋ : ℤ),
              amount := (⌊gf * e.flexGrow⌋ : ℤ),
              cachedTop := e.top, cachedLeft := st.xOffset + e.left },
       { growCount := st.growCount - 1,
         growPool := st.growPool - (⌊gf * e.flexGrow⌋ : ℤ),
         xOffset := st.xOffset +
           ((e.width + (⌊gf * e.flexGrow⌋ : ℤ)) + e.marginLeft + e.marginRight) }) := by
  simp [placeStep, h, hg, hc]

theorem placeStep_grower_last (gf : ℚ) (st : LoopState) (e : FlexChild)
    (h : (!e.enabled || e.ignoreLayout) = false) (hg : e.flexGrow ≠ 0)
    (hc : ¬ st.growCount > 1) :
    placeStep gf st e =
      (some { newWidth := e.width + st.growPool, amount := st.growPool,
              cachedTop := e.top, cachedLeft := st.xOffset + e.left },
       { growCount := st.growCount - 1,
         growPool := st.growPool - st.growPool,
         xOffset := st.xOffset +
           ((e.width + st.growPool) + e.marginLeft + e.marginRight) }) := by
  simp [placeStep, h, hg, hc]

theorem ngrow_cons (e : FlexChild) (es : List FlexChild) :
    ngrow (e :: es) =
      ngrow es + (if e.enabled && decide (e.flexGrow ≠ 0) then 1 else 0) := by
  simp [ngrow, List.countP_cons]

/-- Residual run of the placement loop when no enabled growing children
remain: every placed child keeps its measured width and no growth amounts
are handed out. -/
theorem placeLoop_noGrow (gf : ℚ) (cs : List FlexChild) (st : LoopState)
    (h : ngrow cs = 0) :
    placedOuterSum (placeLoop gf st cs).1 cs = childrenWidth cs
    ∧ growerAmounts (placeLoop gf st cs).1 cs = [] := by
  induction cs generalizing st with
  | nil => simp [placeLoop, placedOuterSum, growerAmounts, childrenWidth]
  | cons e es ih =>
    rw [ngrow_cons] at h
    by_cases hnc : (e.enabled && decide (e.flexGrow ≠ 0)) = true
    · rw [if_pos hnc] at h
      omega
    · rw [if_neg hnc] at h
      have hes : ngrow es = 0 := by omega
      by_cases hskip : (!e.enabled || e.ignoreLayout) = true
      · have hstep := placeStep_skip gf st e hskip
        have hcw : (if e.ignoreLayout || !e.enabled then 0 else e.outerWidth) = 0 := by
          rcases Bool.or_eq_true_iff.mp hskip with h1 | h1 <;> simp [h1]
        constructor
        · rw [childrenWidth_cons, hcw]
          simpa [placeLoop, hstep, placedOuterSum] using (ih st hes).1
        · simpa [placeLoop, hstep, growerAmounts] using (ih st hes).2
      · have hskip' : (!e.enabled || e.ignoreLayout) = false := by
          simpa using hskip
        obtain ⟨hen', hil⟩ := Bool.or_eq_false_iff.mp hskip'
        have hen : e.enabled = true := by simpa using hen'
        have hg : e.flexGrow = 0 := by
          by_contra hg0
          exact hnc (by simp [hen, hg0])
        have hstep := placeStep_noGrowChild gf st e hskip' hg
        have hcw : (if e.ignoreLayout || !e.enabled then 0 else e.outerWidth)
            = e.outerWidth := by
          simp [hil, hen]
        set st' : LoopState :=
          { growCount := st.growCount, growPool := st.growPool,
            xOffset := st.xOffset + (e.width + e.marginLeft + e.marginRight) }
        constructor
        · rw [childrenWidth_cons, hcw]
          have := (ih st' hes).1
          simp only [placeLoop, hstep, placedOuterSum]
          rw [this]
          simp [FlexChild.outerWidth]
        · have := (ih st' hes).2
          simp only [placeLoop, hstep, growerAmounts]
          simpa [hg] using this

/-- Main invariant of the placement loop when every enabled growing child
has weight one: the running `growCount` counts the remaining growers, so
every grower but the last receives `⌊growFactor * flexGrow⌋` and the last
receives the remaining pool; the placed outer sizes absorb the whole
initial pool. -/
theorem placeLoop_grow (gf : ℚ) (cs : List FlexChild) (st : LoopState)
    (hone : ∀ e ∈ cs, e.enabled = true → e.flexGrow ≠ 0 →
      e.flexGrow = 1 ∧ e.ignoreLayout = false)
    (hcount : st.growCount = (ngrow cs : ℚ))
    (hpos : 1 ≤ ngrow cs) :
    placedOuterSum (placeLoop gf st cs).1 cs = childrenWidth cs + st.growPool
    ∧ growerAmounts (placeLoop gf st cs).1 cs =
        List.replicate (ngrow cs - 1) ((⌊gf⌋ : ℚ))
          ++ [st.growPool - ((ngrow cs - 1 : ℕ) : ℚ) * (⌊gf⌋ : ℚ)] := by
  induction cs generalizing st with
  | nil => simp [ngrow] at hpos
  | cons e es ih =>
    have hone' : ∀ x ∈ es, x.enabled = true → x.flexGrow ≠ 0 →
        x.flexGrow = 1 ∧ x.ignoreLayout = false :=
      fun x hx => hone x (List.mem_cons_of_mem _ hx)
    by_cases hnc : (e.enabled && decide (e.flexGrow ≠ 0)) = true
    · -- `e` is an enabled growing child: by `hone` it has weight one and
      -- is not ignoreLayout, hence it is placed and decrements the count.
      have hen : e.enabled = true := (Bool.and_eq_true_iff.mp hnc).1
      have hg : e.flexGrow ≠ 0 := by
        have := (Bool.and_eq_true_iff.mp hnc).2
        simpa using this
      obtain ⟨hg1, hil⟩ := hone e (by simp) hen hg
      have hskip' : (!e.enabled || e.ignoreLayout) = false := by simp [hen, hil]
      have hcons : ngrow (e :: es) = ngrow es + 1 := by rw [ngrow_cons, if_pos hnc]
      have hcw : (if e.ignoreLayout || !e.enabled then 0 else e.outerWidth)
          = e.outerWidth := by simp [hil, hen]
      by_cases hlast : 1 ≤ ngrow es
      · -- not the last grower: `growCount > 1`
        have hgt : st.growCount > 1 := by
          rw [hcount, hcons]
          push_cast
          have : (1 : ℚ) ≤ (ngrow es : ℚ) := by exact_mod_cast hlast
          linarith
        have hstep := placeStep_grower_mid gf st e hskip' hg hgt
        set a : ℚ := ((⌊gf * e.flexGrow⌋ : ℤ) : ℚ) with ha
        have hafl : a = ((⌊gf⌋ : ℤ) : ℚ) := by rw [ha, hg1, mul_one]
        set st' : LoopState :=
          { growCount := st.growCount - 1, growPool := st.growPool - a,
            xOffset := st.xOffset + ((e.width + a) + e.marginLeft + e.marginRight) }
        have hcount' : st'.growCount = (ngrow es : ℚ) := by
          show st.growCount - 1 = (ngrow es : ℚ)
          rw [hcount, hcons]
          push_cast
          ring
        obtain ⟨ihsum, ihamounts⟩ := ih st' hone' hcount' hlast
        constructor
        · rw [childrenWidth_cons, hcw]
          simp only [placeLoop, hstep, placedOuterSum]
          rw [ihsum]
          show e.width + a + e.marginLeft + e.marginRight
              + (childrenWidth es + (st.growPool - a))
            = (e.outerWidth + childrenWidth es) + st.growPool
          simp [FlexChild.outerWidth]
          ring
        · simp only [placeLoop, hstep, growerAmounts, if_pos hg]
          rw [ihamounts, hcons, hafl]
          have hrep : List.replicate (ngrow es + 1 - 1) ((⌊gf⌋ : ℤ) : ℚ)
              = ((⌊gf⌋ : ℤ) : ℚ) :: List.replicate (ngrow es - 1) ((⌊gf⌋ : ℤ) : ℚ) := by
            have : ngrow es + 1 - 1 = (ngrow es - 1) + 1 := by omega
            rw [this, List.replicate_succ]
          rw [hrep]
          simp only [List.cons_append, List.cons.injEq, true_and]
          have harith : st.growPool - a - ((ngrow es - 1 : ℕ) : ℚ) * ((⌊gf⌋ : ℤ) : ℚ)
              = st.growPool - ((ngrow es + 1 - 1 : ℕ) : ℚ) * ((⌊gf⌋ : ℤ) : ℚ) := by
            rw [hafl]
            have h1 : ((ngrow es - 1 : ℕ) : ℚ) = (ngrow es : ℚ) - 1 :=
              Nat.cast_sub hlast
            have h2 : ((ngrow es + 1 - 1 : ℕ) : ℚ) = (ngrow es : ℚ) := by
              norm_num
            rw [h1, h2]
            ring
          rw [harith]
      · -- the last grower: running count is 1, it takes the whole pool
        have hes0 : ngrow es = 0 := by omega
        have hc1 : st.growCount = 1 := by
          rw [hcount, hcons, hes0]
          norm_num
        have hnotgt : ¬ st.growCount > 1 := by rw [hc1]; norm_num
        have hstep := placeStep_grower_last gf st e hskip' hg hnotgt
        set st' : LoopState :=
          { growCount := st.growCount - 1, growPool := st.growPool - st.growPool,
            xOffset := st.xOffset +
              ((e.width + st.growPool) + e.marginLeft + e.marginRight) }
        obtain ⟨hsum0, ham0⟩ := placeLoop_noGrow gf es st' hes0
        constructor
        · rw [childrenWidth_cons, hcw]
          simp only [placeLoop, hstep, placedOuterSum]
          rw [hsum0]
          simp [FlexChild.outerWidth]
          ring
        · simp only [placeLoop, hstep, growerAmounts, if_pos hg]
          rw [ham0, hcons, hes0]
          norm_num
    · -- `e` is not an enabled grower: either skipped or placed unchanged.
      have hcons : ngrow (e :: es) = ngrow es := by
        rw [ngrow_cons, if_neg hnc]
        omega
      rw [hcons] at hcount hpos ⊢
      by_cases hskip : (!e.enabled || e.ignoreLayout) = true
      · have hstep := placeStep_skip gf st e hskip
        have hcw : (if e.ignoreLayout || !e.enabled then 0 else e.outerWidth) = 0 := by
          rcases Bool.or_eq_true_iff.mp hskip with h1 | h1 <;> simp [h1]
        obtain ⟨ihsum, ihamounts⟩ := ih st hone' hcount hpos
        constructor
        · rw [childrenWidth_cons, hcw]
          simp only [placeLoop, hstep, placedOuterSum]
          rw [ihsum]
          ring
        · simp only [placeLoop, hstep, growerAmounts]
          exact ihamounts
      · have hskip' : (!e.enabled || e.ignoreLayout) = false := by simpa using hskip
        obtain ⟨hen', hil⟩ := Bool.or_eq_false_iff.mp hskip'
        have hen : e.enabled = true := by simpa using hen'
        have hg : e.flexGrow = 0 := by
          by_contra hg0
          exact hnc (by simp [hen, hg0])
        have hstep := placeStep_noGrowChild gf st e hskip' hg
        have hcw : (if e.ignoreLayout || !e.enabled then 0 else e.outerWidth)
            = e.outerWidth := by simp [hil, hen]
        set st' : LoopState :=
          { growCount := st.growCount, growPool := st.growPool,
            xOffset := st.xOffset + (e.width + e.marginLeft + e.marginRight) }
        obtain ⟨ihsum, ihamounts⟩ := ih st' hone' hcount hpos
        constructor
        · rw [childrenWidth_cons, hcw]
          simp only [placeLoop, hstep, placedOuterSum]
          rw [ihsum]
          simp [FlexChild.outerWidth]
          ring
        · simp only [placeLoop, hstep, growerAmounts, if_neg (by simp [hg] : ¬ e.flexGrow ≠ 0)]
          exact ihamounts

/-- With a non-zero `growCount`, the starting offset is `0` and the grow
factor is `growPool / growCount`. -/
theorem resolveLayoutH_of_grow (c : FlexContainer)
    (hne : growCount c.children ≠ 0) :
    resolveLayoutH c =
      placeLoop ((c.innerWidth - childrenWidth c.children) / growCount c.children)
        { growCount := growCount c.children,
          growPool := c.innerWidth - childrenWidth c.children,
          xOffset := 0 } c.children := by
  unfold resolveLayoutH
  simp [hne]

/-- The concrete scenario of claim C1: a horizontal container of inner
width 301 with two width-unset `flexGrow = 1` children (their measured
pre-growth widths are 0, since an unset-width grower in a horizontal
parent measures to 0). -/
def ex301 : FlexContainer :=
  { innerWidth := 301, innerHeight := 0,
    children := [{ width := 0, height := 0, flexGrow := 1 },
                 { width := 0, height := 0, flexGrow := 1 }] }

/-- Counterexample container: inner width 301, two children of
`flexGrow = 2`. -/
def exG2 : FlexContainer :=
  { innerWidth := 301, innerHeight := 0,
    children := [{ width := 0, height := 0, flexGrow := 2 },
                 { width := 0, height := 0, flexGrow := 2 }] }

/-- C1, as amended.  For a horizontal flex container with `growCount > 0`
and `growPool ≥ 0`, *provided every enabled growing child has
`flexGrow = 1` and is not `ignoreLayout`*: every growing child except the
last receives exactly `⌊growFactor * flexGrow⌋`, the last receives the
exact remaining pool, and the placed children's outer main-axis sizes sum
exactly to the container's inner width.  (Without the proviso the policy
misfires: the running `growCount` is the *sum of weights* but is
decremented by 1 per grower, so the "last grower" test `growCount > 1`
does not fire on the last grower; see `c1_counterexample`.) -/
theorem c1_flex_grow_exact_sum (c : FlexContainer)
    (hone : ∀ e ∈ c.children, e.enabled = true → e.flexGrow ≠ 0 →
      e.flexGrow = 1 ∧ e.ignoreLayout = false)
    (hpos : 0 < growCount c.children)
    (_hpool : 0 ≤ c.innerWidth - childrenWidth c.children) :
    sumOuterAfter c = c.innerWidth
    ∧ growerAmounts (resolveLayoutH c).1 c.children =
        List.replicate (ngrow c.children - 1)
          ((⌊(c.innerWidth - childrenWidth c.children) / growCount c.children⌋ : ℤ) : ℚ)
        ++ [(c.innerWidth - childrenWidth c.children)
            - ((ngrow c.children - 1 : ℕ) : ℚ)
              * ((⌊(c.innerWidth - childrenWidth c.children) / growCount c.children⌋ : ℤ) : ℚ)] := by
  have hngrow : growCount c.children = (ngrow c.children : ℚ) :=
    growCount_eq_ngrow _ (fun e he hen hg => (hone e he hen hg).1)
  have hne : growCount c.children ≠ 0 := ne_of_gt hpos
  have h1n : 1 ≤ ngrow c.children := by
    by_contra h
    have h0 : ngrow c.children = 0 := by omega
    rw [hngrow, h0] at hpos
    norm_num at hpos
  have key := placeLoop_grow
    ((c.innerWidth - childrenWidth c.children) / growCount c.children)
    c.children
    { growCount := growCount c.children,
      growPool := c.innerWidth - childrenWidth c.children,
      xOffset := 0 } hone hngrow h1n
  constructor
  · show placedOuterSum (resolveLayoutH c).1 c.children = c.innerWidth
    rw [resolveLayoutH_of_grow c hne, key.1]
    ring
  · rw [resolveLayoutH_of_grow c hne, key.2]

/-- C1 counterexample: on `exG2` the claim's hypotheses hold
(`growCount = 4 > 0`, `growPool = 301 ≥ 0`), yet the last growing child
receives `⌊growFactor * 2⌋ = 150`, not the exact remaining pool `151`,
and the children's outer sizes sum to `300 ≠ 301`. -/
theorem c1_counterexample :
    0 < growCount exG2.children
    ∧ 0 ≤ exG2.innerWidth - childrenWidth exG2.children
    ∧ growerAmounts (resolveLayoutH exG2).1 exG2.children = [150, 150]
    ∧ sumOuterAfter exG2 ≠ exG2.innerWidth := by
  refine ⟨?_, ?_, ?_, ?_⟩ <;>
    norm_num [growCount, childrenWidth, exG2, FlexChild.outerWidth,
      sumOuterAfter, resolveLayoutH, placeLoop, placeStep,
      placedOuterSum, growerAmounts]

/-- Witness for `c1_flex_grow_exact_sum` at the claim's own scenario:
container 301, two grow-1 children, first gets 150, second gets 151,
total exactly 301. -/
theorem c1_flex_grow_exact_sum_witness :
    sumOuterAfter ex301 = 301
    ∧ growerAmounts (resolveLayoutH ex301).1 ex301.children = [150, 151] := by
  have hone : ∀ e ∈ ex301.children, e.enabled = true → e.flexGrow ≠ 0 →
      e.flexGrow = 1 ∧ e.ignoreLayout = false := by
    intro e he _ _
    simp only [ex301, List.mem_cons, List.not_mem_nil, or_false] at he
    rcases he with h | h <;> (rw [h]; exact ⟨rfl, rfl⟩)
  have h := c1_flex_grow_exact_sum ex301 hone
    (by norm_num [growCount, ex301])
    (by norm_num [childrenWidth, ex301, FlexChild.outerWidth])
  constructor
  · have h1 := h.1
    rw [h1]
    norm_num [ex301]
  · have h2 := h.2
    rw [h2]
    norm_num [ngrow, ex301, growCount, childrenWidth, FlexChild.outerWidth,
      List.countP, List.countP.go]

/-! ### C2: the grow count and the eligibility predicate -/

theorem growCount_eq_filter_sum (cs : List FlexChild) :
    growCount cs
      = ((cs.filter (fun e => e.enabled)).map (fun e => e.flexGrow)).sum := by
  induction cs with
  | nil => simp [growCount]
  | cons e es ih =>
    rw [growCount_cons, ih]
    by_cases hen : e.enabled = true
    · simp [hen, List.filter_cons]
    · simp [hen, List.filter_cons, Bool.not_eq_true _ ▸ hen]

theorem childrenWidth_eq_filter_sum (cs : List FlexChild) :
    childrenWidth cs
      = ((cs.filter (fun e => e.eligible)).map (fun e => e.outerWidth)).sum := by
  induction cs with
  | nil => simp [childrenWidth]
  | cons e es ih =>
    rw [childrenWidth_cons, ih]
    by_cases hel : e.eligible = true
    · have h1 : (e.ignoreLayout || !e.enabled) = false := by
        unfold FlexChild.eligible at hel
        rcases Bool.and_eq_true_iff.mp hel with ⟨h1, h2⟩
        simp at h2
        simp [h1, h2]
      simp [hel, h1, List.filter_cons]
    · have h1 : (e.ignoreLayout || !e.enabled) = true := by
        unfold FlexChild.eligible at hel
        revert hel
        cases e.enabled <;> cases e.ignoreLayout <;> simp
      simp [hel, h1, List.filter_cons]

theorem placeStep_isSome (gf : ℚ) (st : LoopState) (e : FlexChild) :
    (placeStep gf st e).1.isSome = e.eligible := by
  unfold placeStep FlexChild.eligible
  cases e.enabled <;> cases e.ignoreLayout <;> simp

theorem placeLoop_placement (gf : ℚ) (cs : List FlexChild) (st : LoopState) :
    (placeLoop gf st cs).1.length = cs.length
    ∧ ∀ p ∈ ((placeLoop gf st cs).1.zip cs), p.1.isSome = p.2.eligible := by
  induction cs generalizing st with
  | nil => simp [placeLoop]
  | cons e es ih =>
    simp only [placeLoop]
    obtain ⟨ihlen, ihmem⟩ := ih (placeStep gf st e).2
    constructor
    · simpa using ihlen
    · intro p hp
      simp only [List.zip_cons_cons, List.mem_cons] at hp
      rcases hp with hp | hp
      · rw [hp]
        exact placeStep_isSome gf st e
      · exact ihmem p hp

/-- C2, as amended.  `growCount` is the sum of `flexGrow` over *enabled*
children — `ignoreLayout` children are **not** excluded from it (contrary
to the claim; see `c2_counterexample`).  The eligibility predicate
`enabled ∧ ¬ignoreLayout` *is* applied uniformly when summing pre-growth
sizes (`childrenWidth`) and when placing children (the loop places exactly
the eligible children). -/
theorem c2_growcount_and_eligibility (c : FlexContainer) :
    growCount c.children
      = ((c.children.filter (fun e => e.enabled)).map (fun e => e.flexGrow)).sum
    ∧ childrenWidth c.children
      = ((c.children.filter (fun e => e.eligible)).map (fun e => e.outerWidth)).sum
    ∧ (resolveLayoutH c).1.length = c.children.length
    ∧ ∀ p ∈ ((resolveLayoutH c).1.zip c.children), p.1.isSome = p.2.eligible := by
  refine ⟨growCount_eq_filter_sum _, childrenWidth_eq_filter_sum _, ?_, ?_⟩
  · unfold resolveLayoutH
    exact (placeLoop_placement _ _ _).1
  · unfold resolveLayoutH
    exact (placeLoop_placement _ _ _).2

/-- Container with a single enabled `ignoreLayout` child of weight 1. -/
def exIgn : FlexContainer :=
  { innerWidth := 100, innerHeight := 0,
    children := [{ width := 0, height := 0, flexGrow := 1, ignoreLayout := true }] }

/-- C2 counterexample: with one enabled `ignoreLayout` child of
`flexGrow = 1`, the code computes `growCount = 1`, while the sum of
`flexGrow` over children that are enabled *and* not `ignoreLayout`
is `0`. -/
theorem c2_counterexample :
    growCount exIgn.children = 1 ∧ growCountSpec exIgn.children = 0 := by
  constructor <;>
    norm_num [growCount, growCountSpec, exIgn, FlexChild.eligible]

/-!
## Measurement with fill (claim C3)

Embedding of the `P1` revision's `computedWidth` getter (P1 lines
1926-1957) and `computedHeight` getter (P1 lines 1978-2009), for an
element whose cache is empty (`_cachedWidth === null`).  The getters read
the element's own fields plus a handful of values computed elsewhere
(capability results, content size, the lazily-computed children sums, and
the parent's computed size); those reads are supplied as an environment,
keeping the branch structure of the getter itself verbatim.
-/

/-- A `_width`/`_height` slot: `null`, a number, or a function-valued
size capability. -/
inductive SizeInP1 where
  | unset
  | num (q : ℚ)
  | fn
deriving DecidableEq, Repr

/-- The fields of a P1 element read by its size getters. -/
structure ElemSizeP1 where
  wIn : SizeInP1 := .unset
  hIn : SizeInP1 := .unset
  padLeft : ℚ := 0
  padRight : ℚ := 0
  padTop : ℚ := 0
  padBottom : ℚ := 0
  flexMode : FlexMode := .none
  flexGrow : ℚ := 0
  xFill : ℚ := 0
  yFill : ℚ := 0
deriving DecidableEq, Repr

/-- Values the size getters obtain from outside the element itself. -/
structure EnvP1 where
  /-- Result of `this._width(this)` when `_width` is a function. -/
  wFnResult : Option ℚ := none
  /-- Result of `this._height(this)` when `_height` is a function. -/
  hFnResult : Option ℚ := none
  contentWidth : ℚ := 0
  contentHeight : ℚ := 0
  childrenWidth : ℚ := 0
  childrenHeight : ℚ := 0
  /-- `this.childrenMaxWidth`, read after `this.resolveLayout()`. -/
  childrenMaxWidth : ℚ := 0
  /-- `this.childrenMaxHeight`, read after `this.resolveLayout()`. -/
  childrenMaxHeight : ℚ := 0
  /-- `this._parent!.computedWidth` (the source asserts the parent
  non-null when it reads this). -/
  parentComputedWidth : ℚ := 0
  parentComputedHeight : ℚ := 0
  parentLayout : FlexMode := .none
deriving DecidableEq, Repr

/-- P1 `get computedWidth()` on a cache miss (P1 lines 1926-1957).
Note that the `_width === 0` branch assigns `value = 0` and falls
through: the fill contribution `this._parent!.computedWidth * this._xFill`
is still added afterwards whenever `_xFill` is truthy and `value` is not
`null`. -/
def computedWidthP1 (e : ElemSizeP1) (env : EnvP1) : ℚ :=
  let value : Option ℚ :=
    match e.wIn with
    | .fn => env.wFnResult
    | .num w =>
      -- `else if (this._width)` (truthy) / `else if (this._width === 0)`
      if w ≠ 0 then some w else some 0
    | .unset =>
      match e.flexMode with
      | .none =>
        if e.flexGrow > 0 ∧ env.parentLayout = .horizontal then some 0
        else some env.contentWidth
      | .horizontal => some (env.childrenWidth + e.padLeft + e.padRight)
      | .vertical => some env.childrenMaxWidth
  let value : Option ℚ :=
    if e.xFill ≠ 0 ∧ value ≠ none then
      some (value.getD 0 + env.parentComputedWidth * e.xFill)
    else value
  -- `return value || 0`
  value.getD 0

/-- P1 `get computedHeight()` on a cache miss (P1 lines 1978-2009),
the vertical mirror of `computedWidthP1`. -/
def computedHeightP1 (e : ElemSizeP1) (env : EnvP1) : ℚ :=
  let value : Option ℚ :=
    match e.hIn with
    | .fn => env.hFnResult
    | .num h =>
      if h ≠ 0 then some h else some 0
    | .unset =>
      match e.flexMode with
      | .none =>
        if e.flexGrow > 0 ∧ env.parentLayout = .vertical then some 0
        else some env.contentHeight
      | .horizontal => some env.childrenMaxHeight
      | .vertical => some (env.childrenHeight + e.padTop + e.padBottom)
  let value : Option ℚ :=
    if e.yFill ≠ 0 ∧ value ≠ none then
      some (value.getD 0 + env.parentComputedHeight * e.yFill)
    else value
  value.getD 0

/-- C3, as amended.  When the width input is exactly 0, the computed
width is `fill.x * parentComputedWidth`: padding is never added, but the
fill contribution *is* added whenever `fill.x ≠ 0` — so the computed
width is 0 regardless of padding, and regardless of fill only when
`fill.x = 0`; mirrored for height. -/
theorem c3_zero_size_bypass (e : ElemSizeP1) (env : EnvP1) :
    (e.wIn = .num 0 →
      computedWidthP1 e env = env.parentComputedWidth * e.xFill)
    ∧ (e.hIn = .num 0 →
      computedHeightP1 e env = env.parentComputedHeight * e.yFill) := by
  constructor
  · intro hw
    unfold computedWidthP1
    rw [hw]
    by_cases hf : e.xFill = 0
    · simp [hf]
    · simp [hf]
  · intro hh
    unfold computedHeightP1
    rw [hh]
    by_cases hf : e.yFill = 0
    · simp [hf]
    · simp [hf]

/-- Witness for `c3_zero_size_bypass`: width input 0, padding 7, no fill
gives computed width 0 (and the height mirror). -/
theorem c3_zero_size_bypass_witness :
    computedWidthP1 { wIn := .num 0, hIn := .num 0, padLeft := 7, padRight := 7,
                      padTop := 7, padBottom := 7 } { parentComputedWidth := 100 } = 0
    ∧ computedHeightP1 { wIn := .num 0, hIn := .num 0, padLeft := 7, padRight := 7,
                         padTop := 7, padBottom := 7 } { parentComputedHeight := 100 } = 0 := by
  constructor
  · rw [(c3_zero_size_bypass
      { wIn := .num 0, hIn := .num 0, padLeft := 7, padRight := 7,
        padTop := 7, padBottom := 7 } { parentComputedWidth := 100 }).1 rfl]
    norm_num
  · rw [(c3_zero_size_bypass
      { wIn := .num 0, hIn := .num 0, padLeft := 7, padRight := 7,
        padTop := 7, padBottom := 7 } { parentComputedHeight := 100 }).2 rfl]
    norm_num

/-- C3 counterexample: width input exactly 0 with `fill.x = 1` and a
parent of computed width 100 yields computed width 100, not 0 — the fill
contribution is added in this case (mirrored for height). -/
theorem c3_counterexample :
    computedWidthP1 { wIn := .num 0, xFill := 1, padLeft := 5, padRight := 5 }
      { parentComputedWidth := 100 } = 100
    ∧ computedHeightP1 { hIn := .num 0, yFill := 1, padTop := 5, padBottom := 5 }
      { parentComputedHeight := 100 } = 100 := by
  constructor <;>
  · norm_num [computedWidthP1, computedHeightP1]
    rw [if_neg (by simp : ¬ (some (0:ℚ) = none))]
    rfl

/-!
## Percentage size assignment (claim C4)

`setWidth` exists in both cited revisions.  LB (lines 1233-1246) turns
`"N%"` into a *width* capability
`element => element._parent?.widthReady ? (element._parent.innerWidth * (N/100)) : null`.
P1 (lines 1559-1573) instead assigns
`this._height = element => element._parent!.computedWidth * amount` —
writing the *height* slot from inside `setWidth`, with no ready gate and
reading the parent's computed (not inner) width.  Both are embedded below
over the element's two input slots; installed capabilities are modelled
as tokens together with an evaluation function giving the closure's
behaviour against a view of the parent.
-/

/-- Capability closures installed by the set-size functions. -/
inductive SizeCap where
  /-- LB `setWidth`:
  `element => element._parent?.widthReady ? (element._parent.innerWidth * r) : null`. -/
  | parentInnerWidthGated (r : ℚ)
  /-- LB `setHeight`: `element => element._parent!.height * r`. -/
  | parentHeightRaw (r : ℚ)
  /-- P1 `setWidth` (written to `_height`):
  `element => element._parent!.computedWidth * r`. -/
  | parentComputedWidthRaw (r : ℚ)
  /-- P1 `setHeight`: `element => element._parent!.computedHeight * r`. -/
  | parentComputedHeightRaw (r : ℚ)
deriving DecidableEq, Repr

/-- A size-input slot of an element. -/
inductive SizeSlot where
  | unset
  | num (q : ℚ)
  | cap (c : SizeCap)
deriving DecidableEq, Repr

/-- The two size-input slots of an element. -/
structure ElemSlots where
  wIn : SizeSlot := .unset
  hIn : SizeSlot := .unset
deriving DecidableEq, Repr

/-- Argument accepted by `setWidth`/`setHeight`. -/
inductive SetSizeArg where
  | num (q : ℚ)
  | str (s : String)
  | unsetArg
deriving DecidableEq, Repr

/-- The regex test `value.match(/^(\d+)%$/)` followed by
`parseInt(match[1], 10)`: a non-empty run of decimal digits followed by a
single percent sign. -/
def parsePct (s : String) : Option ℕ :=
  let cs := s.data
  match cs.getLast? with
  | some '%' =>
    let ds := cs.dropLast
    if ds ≠ [] ∧ ds.all (·.isDigit) then
      some (ds.foldl (fun n c => 10 * n + (c.toNat - '0'.toNat)) 0)
    else none
  | _ => none

/-- JS strict equality between the stored slot and the argument (the
`this._width !== value` guard); a string argument is never identical to
the stored number/function/null. -/
def slotEqArg : SizeSlot → SetSizeArg → Bool
  | .num q, .num q' => q = q'
  | .unset, .unsetArg => true
  | _, _ => false

/-- What the parent looks like to an installed capability. -/
structure ParentView where
  widthReady : Bool
  innerWidth : ℚ
  height : ℚ
  computedWidth : ℚ
  computedHeight : ℚ
deriving DecidableEq, Repr

/-- Behaviour of an installed capability when evaluated, given the
element's parent (`none` = no parent).  The `?.`-guarded LB width
capability yields `null` without a parent; the `!`-asserted ones would
throw in JS on a detached element — capabilities are evaluated only on
attached elements, and that case is modelled as `none`. -/
def SizeCap.eval : SizeCap → Option ParentView → Option ℚ
  | .parentInnerWidthGated r, some p =>
    if p.widthReady then some (p.innerWidth * r) else none
  | .parentHeightRaw r, some p => some (p.height * r)
  | .parentComputedWidthRaw r, some p => some (p.computedWidth * r)
  | .parentComputedHeightRaw r, some p => some (p.computedHeight * r)
  | _, none => none

/-- LB `setWidth` (LB lines 1233-1246), restricted to its effect on the
input slots (the trailing `setDirty` call is the subject of claim C8). -/
def setWidthLB (e : ElemSlots) (v : SetSizeArg) : Except String ElemSlots :=
  if slotEqArg e.wIn v then .ok e
  else match v with
    | .str s =>
      match parsePct s with
      | none => .error "unknown width format"
      | some n => .ok { e with wIn := .cap (.parentInnerWidthGated ((n : ℚ) / 100)) }
    | .num q => .ok { e with wIn := .num q }
    | .unsetArg => .ok { e with wIn := .unset }

/-- P1 `setWidth` (P1 lines 1559-1573).  In the percentage branch the
source assigns `this._height = element => element._parent!.computedWidth * amount`:
the *height* slot receives the capability and `_width` is left unchanged. -/
def setWidthP1 (e : ElemSlots) (v : SetSizeArg) : Except String ElemSlots :=
  if slotEqArg e.wIn v then .ok e
  else match v with
    | .str s =>
      match parsePct s with
      | none => .error "unknown width format"
      | some n => .ok { e with hIn := .cap (.parentComputedWidthRaw ((n : ℚ) / 100)) }
    | .num q => .ok { e with wIn := .num q }
    | .unsetArg => .ok { e with wIn := .unset }

/-- P1 `setHeight` (P1 lines 1575-1589): installs
`element => element._parent!.computedHeight * amount` into `_height`
(no ready gate, computed rather than inner height). -/
def setHeightP1 (e : ElemSlots) (v : SetSizeArg) : Except String ElemSlots :=
  if slotEqArg e.hIn v then .ok e
  else match v with
    | .str s =>
      match parsePct s with
      | none => .error "unknown height format"
      | some n => .ok { e with hIn := .cap (.parentComputedHeightRaw ((n : ℚ) / 100)) }
    | .num q => .ok { e with hIn := .num q }
    | .unsetArg => .ok { e with hIn := .unset }

/-- The LB revision behaves as claim C4 describes: `setWidth "N%"`
installs a *width* capability, leaves the height input unchanged, and the
capability returns `parent.innerWidth * N/100` when the parent's width is
ready and `null` otherwise. -/
theorem setWidthLB_conforms (e : ElemSlots) (s : String) (n : ℕ)
    (hp : parsePct s = some n) (hguard : slotEqArg e.wIn (.str s) = false) :
    setWidthLB e (.str s)
        = .ok { e with wIn := .cap (.parentInnerWidthGated ((n : ℚ) / 100)) }
    ∧ (∀ p : ParentView,
        SizeCap.eval (.parentInnerWidthGated ((n : ℚ) / 100)) (some p)
          = if p.widthReady then some (p.innerWidth * ((n : ℚ) / 100)) else none)
    ∧ SizeCap.eval (.parentInnerWidthGated ((n : ℚ) / 100)) none = none := by
  refine ⟨?_, fun p => rfl, rfl⟩
  unfold setWidthLB
  rw [hguard]
  simp [hp]

/-- C4 bug evaluation: in the cited P1 revision, `setWidth("50%")` leaves
the width input unchanged and instead installs the (ungated,
computed-width-reading) capability into the *height* slot. -/
theorem c4_setwidth_assigns_height_slot :
    setWidthP1 { wIn := .unset, hIn := .unset } (.str "50%")
      = .ok { wIn := .unset,
              hIn := .cap (.parentComputedWidthRaw (1 / 2)) }
    ∧ SizeCap.eval (.parentComputedWidthRaw (1 / 2))
        (some { widthReady := false, innerWidth := 40, height := 0,
                computedWidth := 100, computedHeight := 0 }) = some 50 := by
  have hp : parsePct "50%" = some 50 := by decide
  constructor
  · unfold setWidthP1
    rw [show slotEqArg SizeSlot.unset (.str "50%") = false from rfl]
    simp only [hp]
    norm_num
  · simp [SizeCap.eval]
    norm_num

/-!
## Name index and path resolution (claims C5, C6, C7)

The tree of elements with their name indices.  Node identity (JS object
references) is encoded positionally: an address is the list of child
indices from the root.  A node's `_childrenMap` is modelled by a `hasMap`
flag (the map is allocated iff the element was configured with a name and
without `noChildrenMap`, but resolution only tests its presence) plus its
entries, mapping registered names to the addresses of the registered
elements.
-/

/-- Address of a node: child-index path from the root. -/
abbrev Addr := List ℕ

/-- The element tree as seen by the naming machinery. -/
inductive NTree where
  | node (name : Option String) (hasMap : Bool)
      (entries : List (String × Addr)) (children : List NTree)

namespace NTree

def name : NTree → Option String
  | node n _ _ _ => n

def hasMap : NTree → Bool
  | node _ m _ _ => m

def entries : NTree → List (String × Addr)
  | node _ _ es _ => es

def children : NTree → List NTree
  | node _ _ _ cs => cs

/-- Node at an address, if the address is valid. -/
def atAddr : NTree → Addr → Option NTree
  | t, [] => some t
  | node _ _ _ cs, i :: rest =>
    match cs.get? i with
    | some c => atAddr c rest
    | none => none

end NTree

/-- Placeholder for a dangling address (an address not denoting a node;
object references in the source always denote one, so this only matters
off the well-formed state space). -/
def emptyNode : NTree := .node none false [] []

/-- Total read of the node at an address. -/
def nodeAt (root : NTree) (a : Addr) : NTree :=
  (root.atAddr a).getD emptyNode

/-- `current.children.length` at an address. -/
def childCountAt (root : NTree) (a : Addr) : ℕ :=
  (nodeAt root a).children.length

/-- `current._childrenMap ? current._childrenMap.get(seg) : null`. -/
def lookupIndex (root : NTree) (a : Addr) (seg : String) : Option Addr :=
  if (nodeAt root a).hasMap then (nodeAt root a).entries.lookup seg else none

/-- Model of the JavaScript `Number(string)` coercion on the string
shapes a path segment can take (segments never contain `.`, since the
path was split on it): surrounding whitespace is trimmed, the empty
string coerces to `0`, an optional sign followed by decimal digits
coerces to the signed value, and anything else is `NaN` (`none`) — which
the caller treats like a non-finite value.  (Hexadecimal and exponent
forms also coerce in JS; they are not modelled, path segments being
names, `parent`, or decimal indices.) -/
def jsWhitespace (c : Char) : Bool :=
  c = ' ' || c = '\t' || c = '\n' || c = '\r'

def jsNumber (s : String) : Option ℤ :=
  let t := (s.data.dropWhile jsWhitespace).reverse.dropWhile jsWhitespace |>.reverse
  if t = [] then some 0
  else
    let (sign, ds) :=
      match t with
      | '+' :: rest => ((1 : ℤ), rest)
      | '-' :: rest => ((-1 : ℤ), rest)
      | l => ((1 : ℤ), l)
    if ds ≠ [] ∧ ds.all (·.isDigit) then
      some (sign * (ds.foldl (fun n c => 10 * n + (c.toNat - '0'.toNat)) 0 : ℕ))
    else none

/-- JS `string.split(".")`: split on every occurrence of the separator,
keeping empty segments. -/
def splitSegsAux : List Char → List Char → List (List Char)
  | acc, [] => [acc.reverse]
  | acc, c :: rest =>
    if c = '.' then acc.reverse :: splitSegsAux [] rest
    else splitSegsAux (c :: acc) rest

/-- `name.split(".")` on a Lean string. -/
def jsSplitDot (s : String) : List String :=
  (splitSegsAux [] s.data).map (fun l => ⟨l⟩)

/-- Errors thrown by the navigation code: the resolution error
(`could not resolve '...'`) and the parent getter's structural error
(`layout parent is null!`). -/
inductive NavErr where
  | resolution
  | parentNull
deriving DecidableEq, Repr

/-- The segment loop of `getElement` (P1 lines 1447-1468).  `.ok none`
is the `null` result returned under `noThrow`. -/
def getElementLoop (root : NTree) (noThrow : Bool) :
    Addr → List String → Except NavErr (Option Addr)
  | cur, [] => .ok (some cur)
  | cur, seg :: rest =>
    match lookupIndex root cur seg with
    | some a => getElementLoop root noThrow a rest
    | none =>
      -- `else if (path[i] == "parent" && current._parent)`
      if seg = "parent" ∧ cur ≠ [] then
        getElementLoop root noThrow cur.dropLast rest
      else
        -- `const index = Number(path[i])`
        match jsNumber seg with
        | none => if noThrow then .ok none else .error .resolution
        | some idx =>
          if idx < 0 ∨ (childCountAt root cur : ℤ) ≤ idx then
            if noThrow then .ok none else .error .resolution
          else getElementLoop root noThrow (cur ++ [idx.toNat]) rest

/-- Delegation climb of `getElement`, over the *reversed* address (the
structural parent of `addr` is `addr.dropLast`, i.e. the tail of the
reversed address). -/
def getElementFromAux (root : NTree) (path : String) (noThrow : Bool) :
    Addr → Except NavErr (Option Addr)
  | [] =>
    if !(nodeAt root ([] : Addr)).hasMap then .error .parentNull
    else getElementLoop root noThrow [] (jsSplitDot path)
  | h :: t =>
    if !(nodeAt root ((h :: t) : Addr).reverse).hasMap then
      getElementFromAux root path noThrow t
    else getElementLoop root noThrow ((h :: t) : Addr).reverse (jsSplitDot path)

/-- `getElement` (P1 lines 1439-1469): the empty path returns the node
itself; a node without its own index delegates to `this.parent` (whose
getter throws `parentNull` on a root); otherwise the path is split on
`.` and resolved segment by segment from the nearest indexed
ancestor. -/
def getElementFrom (root : NTree) (addr : Addr) (path : String)
    (noThrow : Bool) : Except NavErr (Option Addr) :=
  if path = "" then .ok (some addr)
  else getElementFromAux root path noThrow addr.reverse

/-- Climb to the nearest ancestor-or-self holding an index, over the
reversed address. -/
def nearestIndexedAux (root : NTree) : Addr → Option Addr
  | [] => if (nodeAt root ([] : Addr)).hasMap then some [] else none
  | h :: t =>
    if (nodeAt root ((h :: t) : Addr).reverse).hasMap then
      some ((h :: t) : Addr).reverse
    else nearestIndexedAux root t

/-- The nearest ancestor-or-self of `addr` holding an index. -/
def nearestIndexed (root : NTree) (addr : Addr) : Option Addr :=
  nearestIndexedAux root addr.reverse

/-- Segment resolution exactly as the claim words it (the definition to
compare the source against): an exact name match in the current node's
index; the literal token `parent` (moving to the structural parent); a
segment that *is* a non-negative decimal integer strictly below the
child count; otherwise failure. -/
def specIsIndex (s : String) : Option ℕ :=
  if s.data ≠ [] ∧ s.data.all (·.isDigit) then
    some (s.data.foldl (fun n c => 10 * n + (c.toNat - '0'.toNat)) 0)
  else none

/-- Path resolution following the claim's per-segment rules verbatim
(`none` = resolution fails). -/
def specResolve (root : NTree) : Addr → List String → Option Addr
  | cur, [] => some cur
  | cur, seg :: rest =>
    match lookupIndex root cur seg with
    | some a => specResolve root a rest
    | none =>
      if seg = "parent" ∧ cur ≠ [] then
        specResolve root cur.dropLast rest
      else
        match specIsIndex seg with
        | some i =>
          if i < childCountAt root cur then specResolve root (cur ++ [i]) rest
          else none
        | none => none

/-- Path resolution as amended: the positional rule accepts any segment
whose JS `Number` coercion is finite, non-negative and strictly below
the child count (so the empty segment counts as index `0`). -/
def specResolveAmended (root : NTree) : Addr → List String → Option Addr
  | cur, [] => some cur
  | cur, seg :: rest =>
    match lookupIndex root cur seg with
    | some a => specResolveAmended root a rest
    | none =>
      if seg = "parent" ∧ cur ≠ [] then
        specResolveAmended root cur.dropLast rest
      else
        match jsNumber seg with
        | some idx =>
          if 0 ≤ idx ∧ idx < (childCountAt root cur : ℤ) then
            specResolveAmended root (cur ++ [idx.toNat]) rest
          else none
        | none => none

/-- The segment loop agrees with the amended per-segment rules, with
resolution failure surfaced as `null` under `noThrow` and as the
resolution error otherwise. -/
theorem getElementLoop_eq_specAmended (root : NTree) (noThrow : Bool) :
    ∀ (path : List String) (cur : Addr),
    getElementLoop root noThrow cur path
      = match specResolveAmended root cur path with
        | some a => .ok (some a)
        | none => if noThrow then .ok none else .error .resolution := by
  intro path
  induction path with
  | nil => intro cur; simp [getElementLoop, specResolveAmended]
  | cons seg rest ih =>
    intro cur
    simp only [getElementLoop, specResolveAmended]
    cases h1 : lookupIndex root cur seg with
    | some a => exact ih a
    | none =>
      dsimp only
      by_cases h2 : seg = "parent" ∧ cur ≠ []
      · rw [if_pos h2, if_pos h2]
        exact ih _
      · rw [if_neg h2, if_neg h2]
        cases h3 : jsNumber seg with
        | none => rfl
        | some idx =>
          dsimp only
          by_cases h4 : idx < 0 ∨ (childCountAt root cur : ℤ) ≤ idx
          · rw [if_pos h4, if_neg (by omega : ¬ (0 ≤ idx ∧ idx < (childCountAt root cur : ℤ)))]
          · rw [if_neg h4, if_pos (by omega : (0 ≤ idx ∧ idx < (childCountAt root cur : ℤ)))]
            exact ih _

/-- The delegation climb finds the nearest indexed ancestor and runs the
segment loop there; without one it ends in the parent getter's
structural error. -/
theorem getElementFromAux_eq (root : NTree) (path : String) (noThrow : Bool) :
    ∀ raddr : Addr,
    getElementFromAux root path noThrow raddr
      = match nearestIndexedAux root raddr with
        | none => .error .parentNull
        | some a => getElementLoop root noThrow a (jsSplitDot path) := by
  intro raddr
  induction raddr with
  | nil =>
    simp only [getElementFromAux, nearestIndexedAux]
    by_cases h : (nodeAt root ([] : Addr)).hasMap
    · rw [if_pos h]
      simp [h]
    · rw [if_pos (by simp [h])]
      simp [h]
  | cons hd t ih =>
    simp only [getElementFromAux, nearestIndexedAux, List.reverse_cons]
    by_cases h : (nodeAt root (t.reverse ++ [hd])).hasMap
    · rw [if_neg (by simp [h]), if_pos h]
    · rw [if_pos (by simp [h]), if_neg h]
      exact ih

/-- C5, as amended.  For a non-empty path, resolution starts at the
nearest ancestor-or-self holding an index (failing with the structural
parent error if there is none) and processes the dot-separated segments
in order: an exact name match in the current node's index first; then
the literal token `parent` (when a structural parent exists); then any
segment whose JS `Number` coercion is finite, non-negative and strictly
below the current child count — the empty segment counting as index 0 —
selects the positional child; any other segment fails the resolution. -/
theorem c5_path_resolution (root : NTree) (addr : Addr) (path : String)
    (noThrow : Bool) (hpath : path ≠ "") :
    getElementFrom root addr path noThrow
      = match nearestIndexed root addr with
        | none => .error .parentNull
        | some a =>
          match specResolveAmended root a (jsSplitDot path) with
          | some r => .ok (some r)
          | none => if noThrow then .ok none else .error .resolution := by
  unfold getElementFrom nearestIndexed
  rw [if_neg hpath, getElementFromAux_eq]
  cases nearestIndexedAux root addr.reverse with
  | none => rfl
  | some a => exact getElementLoop_eq_specAmended root noThrow _ a

/-- Tree for the C5 counterexample: an indexed root with an unnamed
child that has an unnamed child. -/
def exTree : NTree :=
  .node (some "r") true [] [.node none false [] [.node none false [] []]]

/-- C5 counterexample: the path `"."` splits into two empty segments;
each matches none of the claim's three rules (it is not a registered
name, not `parent`, and not a non-negative integer), so the claim
predicts failure — but `Number("") == 0`, so the code resolves it to the
first grandchild. -/
theorem c5_counterexample :
    getElementFrom exTree [] "." false = .ok (some [0, 0])
    ∧ specResolve exTree [] (jsSplitDot ".") = none := by
  constructor
  · rfl
  · rfl

/-- Witness for `c5_path_resolution`: resolving `"0.parent.0"` from the
indexed root of `exTree` walks down, up, and down again to the first
child. -/
theorem c5_path_resolution_witness :
    getElementFrom exTree [] "0.parent.0" false = .ok (some [0]) := by
  have h := c5_path_resolution exTree [] "0.parent.0" false (by decide)
  rw [h]
  rfl

/-- C6, as amended.  `getElement` never fails on the empty path (the
node itself is returned).  When the node or some ancestor holds an
index, the result is a node or a resolution failure — returned as a
`null`-style absent result whenever `noThrow` is passed, so `noThrow`
never raises in that case.  When *no* ancestor holds an index, a
non-empty path fails with the structural `layout parent is null` error
— even under `noThrow`. -/
theorem c6_resolution_error_modes (root : NTree) (addr : Addr)
    (path : String) (noThrow : Bool) :
    (getElementFrom root addr "" noThrow = .ok (some addr))
    ∧ ((∃ a, nearestIndexed root addr = some a) →
        (∃ r, getElementFrom root addr path noThrow = .ok r)
        ∨ getElementFrom root addr path noThrow = .error .resolution)
    ∧ (noThrow = true → (∃ a, nearestIndexed root addr = some a) →
        ∃ r, getElementFrom root addr path true = .ok r)
    ∧ (path ≠ "" → nearestIndexed root addr = none →
        getElementFrom root addr path noThrow = .error .parentNull) := by
  refine ⟨by simp [getElementFrom], ?_, ?_, ?_⟩
  · rintro ⟨a, ha⟩
    by_cases hpath : path = ""
    · subst hpath
      exact Or.inl ⟨some addr, by simp [getElementFrom]⟩
    · unfold getElementFrom
      rw [if_neg hpath, getElementFromAux_eq]
      unfold nearestIndexed at ha
      rw [ha]
      dsimp only
      rw [getElementLoop_eq_specAmended]
      cases specResolveAmended root a (jsSplitDot path) with
      | some r => exact Or.inl ⟨some r, rfl⟩
      | none =>
        cases noThrow with
        | true => exact Or.inl ⟨none, rfl⟩
        | false => exact Or.inr rfl
  · rintro rfl ⟨a, ha⟩
    by_cases hpath : path = ""
    · subst hpath
      exact ⟨some addr, by simp [getElementFrom]⟩
    · unfold getElementFrom
      rw [if_neg hpath, getElementFromAux_eq]
      unfold nearestIndexed at ha
      rw [ha]
      dsimp only
      rw [getElementLoop_eq_specAmended]
      cases specResolveAmended root a (jsSplitDot path) with
      | some r => exact ⟨some r, rfl⟩
      | none => exact ⟨none, rfl⟩
  · intro hpath hnone
    unfold getElementFrom
    rw [if_neg hpath, getElementFromAux_eq]
    unfold nearestIndexed at hnone
    rw [hnone]


/-- C6 counterexample: on a root without an index, a non-empty path under
`noThrow` still raises — the delegation hits the `parent` getter, which
throws `layout parent is null!` instead of returning the `null`-style
absent result the claim promises for every otherwise-failing input. -/
theorem c6_counterexample :
    getElementFrom (.node none false [] []) [] "x" true
      = .error .parentNull := by
  rfl

/-- Witness for `c6_resolution_error_modes` on `exTree`: an unresolvable
path under `noThrow` yields an ok result (the absent-result return), and
the empty path returns the node itself. -/
theorem c6_resolution_error_modes_witness :
    (∃ r, getElementFrom exTree [] "nope" true = .ok r)
    ∧ getElementFrom exTree [] "" false = .ok (some []) := by
  refine ⟨(c6_resolution_error_modes exTree [] "nope" true).2.2.1 rfl ⟨[], ?_⟩,
    (c6_resolution_error_modes exTree [] "" false).1⟩
  rfl

/-!
## Tree mutation: `insertElement` (claim C7)

Embedding of P1 `insertElement` (P1 lines 1345-1377) for an element that
is freshly constructed (detached), the situation the claim describes:
`element._parent?.removeElement(element)` is then a no-op, and setting
`element._parent` is implicit in attaching the subtree.  The trailing
`this.setDirty()` call concerns the geometry state, modelled separately
(claim C8).  Because node identity is encoded positionally, the entry
addresses of siblings shifted by the splice are remapped so that they
keep denoting the same objects — this is part of the representation, not
of the algorithm.
-/

/-- `before` argument: a sibling reference (the referenced node's
address), a resolvable name, or a numeric index. -/
inductive BeforeArg where
  | ref (a : Addr)
  | byName (s : String)
  | idx (n : ℤ)

/-- `this.children.indexOf(x)`: position of the node at `a` among the
children of `p` (which has `len` children), or `-1`. -/
def indexOfChild (p : Addr) (len : ℕ) (a : Addr) : ℤ :=
  if a.take p.length = p then
    match a.drop p.length with
    | [i] => if i < len then (i : ℤ) else -1
    | _ => -1
  else -1

mutual

/-- Apply `f` to the node at an address (identity on a dangling
address). -/
def modifyAt (f : NTree → NTree) : NTree → Addr → NTree
  | t, [] => f t
  | .node n m ent cs, i :: rest => .node n m ent (modifyAtList f cs i rest)

def modifyAtList (f : NTree → NTree) : List NTree → ℕ → Addr → List NTree
  | [], _, _ => []
  | c :: cs, 0, rest => modifyAt f c rest :: cs
  | c :: cs, j + 1, rest => c :: modifyAtList f cs j rest

end

mutual

/-- Rewrite every entry address in the tree. -/
def mapEntriesTree (f : Addr → Addr) : NTree → NTree
  | .node n m ent cs =>
    .node n m (ent.map fun e => (e.1, f e.2)) (mapEntriesList f cs)

def mapEntriesList (f : Addr → Addr) : List NTree → List NTree
  | [] => []
  | c :: cs => mapEntriesTree f c :: mapEntriesList f cs

end

/-- Address translation for a splice at position `pos` under `p`:
subtrees of children at positions `≥ pos` move one slot to the right. -/
def shiftAddr (p : Addr) (pos : ℕ) (a : Addr) : Addr :=
  if a.take p.length = p then
    match a.drop p.length with
    | j :: rest => if pos ≤ j then p ++ (j + 1) :: rest else a
    | [] => a
  else a

/-- `this.children.splice(index, 0, element)` /
`this.children.push(element)` at one node (`splice` clamps a
past-the-end position to an append, and `push` is the `pos = length`
case of the same operation). -/
def insertChildHere (pos : ℕ) (elem : NTree) : NTree → NTree
  | .node n m ent cs => .node n m ent (cs.take pos ++ elem :: cs.drop pos)

/-- JS `Map.set`: replace the binding in place or append it. -/
def assocSet : List (String × Addr) → String → Addr → List (String × Addr)
  | [], k, v => [(k, v)]
  | (k', v') :: rest, k, v =>
    if k' = k then (k, v) :: rest else (k', v') :: assocSet rest k v

def setEntryHere (k : String) (v : Addr) : NTree → NTree
  | .node n m ent cs => .node n m (assocSet ent k v) cs

/-- `nameAdd` (P1 lines 1108-1114): register a name in the nearest
ancestor-or-self holding an index; silently a no-op when none does. -/
def registerName (root : NTree) (start : Addr) (k : String) (v : Addr) : NTree :=
  match nearestIndexed root start with
  | some a => modifyAt (setEntryHere k v) root a
  | none => root

/-- The spliced-in subtree and index registration for a landing
position. -/
def insertedTree (root : NTree) (p : Addr) (elem : NTree) (pos : ℕ) : NTree :=
  let shifted := mapEntriesTree (shiftAddr p pos) root
  let t1 := modifyAt (insertChildHere pos elem) shifted p
  match elem.name with
  | some nm =>
    -- `if (element.name && (element.name[0] != "@"))`
    if nm ≠ "" ∧ nm.data.head? ≠ some '@' then
      registerName t1 p nm (p ++ [pos])
    else t1
  | none => t1

/-- The landing position: the correction
`if (index < 0) index = Math.max(0, (this.children.length + 1) - index)`
followed by `splice`'s clamping of a past-the-end position to an
append. -/
def finalPos (idx0 : ℤ) (len : ℕ) : ℕ :=
  min (if idx0 < 0 then max 0 ((len : ℤ) + 1 - idx0) else idx0).toNat len

/-- `insertElement(element, before?)` (P1 lines 1345-1377) of a fresh
`elem` under the node at `p`; returns the new tree and the position the
element landed at. -/
def insertElement (root : NTree) (p : Addr) (elem : NTree)
    (before : Option BeforeArg) : Except NavErr (NTree × ℕ) :=
  let len := childCountAt root p
  let idxE : Except NavErr ℤ :=
    match before with
    | none => .ok (len : ℤ)
    | some (.idx n) => .ok (min n (len : ℤ))
    | some (.ref a) => .ok (indexOfChild p len a)
    | some (.byName s) =>
      match getElementFrom root p s false with
      | .error e => .error e
      | .ok (some a) => .ok (indexOfChild p len a)
      -- unreachable: with `noThrow = false` resolution never returns the
      -- absent result
      | .ok none => .ok (-1)
  match idxE with
  | .error e => .error e
  | .ok idx0 => .ok (insertedTree root p elem (finalPos idx0 len), finalPos idx0 len)

theorem finalPos_neg (idx0 : ℤ) (len : ℕ) (h : idx0 < 0) :
    finalPos idx0 len = len := by
  unfold finalPos
  rw [if_pos h]
  omega

theorem finalPos_nonneg (idx0 : ℤ) (len : ℕ) (h : 0 ≤ idx0) :
    finalPos idx0 len = min idx0.toNat len := by
  unfold finalPos
  rw [if_neg (by omega)]

theorem indexOfChild_nat_lt (p : Addr) (len : ℕ) (a : Addr) (i : ℕ)
    (h : indexOfChild p len a = (i : ℕ)) : i < len := by
  unfold indexOfChild at h
  split at h
  · split at h
    · split at h <;> omega
    · omega
  · omega

/-- C7, as amended.  Only an unresolvable `before` *name* makes
`insertElement` fail (with the propagated resolution error).  Every
other unlocatable insertion point silently appends: a sibling reference
(or resolved name) that is not a direct child yields index `-1`, which
the correction `max(0, length + 1 - index)` turns into a past-the-end
position, clamped by `splice` to an append; a negative numeric index is
treated the same way (it does *not* count from the end); a non-negative
numeric index is clamped to the child count. -/
theorem c7_insert_failure_modes (root : NTree) (p : Addr) (elem : NTree) :
    (∀ s e', getElementFrom root p s false = .error e' →
      insertElement root p elem (some (.byName s)) = .error e')
    ∧ (∀ a, indexOfChild p (childCountAt root p) a = -1 →
        insertElement root p elem (some (.ref a))
          = .ok (insertedTree root p elem (childCountAt root p),
                 childCountAt root p))
    ∧ (∀ a i, indexOfChild p (childCountAt root p) a = (i : ℕ) →
        insertElement root p elem (some (.ref a))
          = .ok (insertedTree root p elem i, i))
    ∧ (∀ n : ℤ, 0 ≤ n →
        insertElement root p elem (some (.idx n))
          = .ok (insertedTree root p elem (min n.toNat (childCountAt root p)),
                 min n.toNat (childCountAt root p)))
    ∧ (∀ n : ℤ, n < 0 →
        insertElement root p elem (some (.idx n))
          = .ok (insertedTree root p elem (childCountAt root p),
                 childCountAt root p))
    ∧ insertElement root p elem none
        = .ok (insertedTree root p elem (childCountAt root p),
               childCountAt root p) := by
  refine ⟨?_, ?_, ?_, ?_, ?_, ?_⟩
  · intro s e' herr
    unfold insertElement
    dsimp only
    rw [herr]
  · intro a ha
    unfold insertElement
    dsimp only
    rw [ha, finalPos_neg _ _ (by norm_num)]
  · intro a i ha
    have hlt := indexOfChild_nat_lt _ _ _ _ ha
    unfold insertElement
    dsimp only
    rw [ha, finalPos_nonneg _ _ (by omega)]
    have : min ((i : ℤ)).toNat (childCountAt root p) = i := by omega
    rw [this]
  · intro n hn
    unfold insertElement
    dsimp only
    have hm : (0 : ℤ) ≤ min n (childCountAt root p : ℤ) := by
      have : (0 : ℤ) ≤ (childCountAt root p : ℤ) := by positivity
      omega
    rw [finalPos_nonneg _ _ hm]
    have : min (min n (childCountAt root p : ℤ)).toNat (childCountAt root p)
        = min n.toNat (childCountAt root p) := by omega
    rw [this]
  · intro n hn
    unfold insertElement
    dsimp only
    have hm : min n (childCountAt root p : ℤ) < 0 := by
      omega
    rw [finalPos_neg _ _ hm]
  · unfold insertElement
    dsimp only
    rw [finalPos_nonneg _ _ (by positivity)]
    have : min ((childCountAt root p : ℤ)).toNat (childCountAt root p)
        = childCountAt root p := by omega
    rw [this]

/-- C7 counterexample: inserting before a node that exists in the tree
but is *not* a direct child of the target (`exTree`'s grandchild
`[0,0]`, referenced from the root) does not fail — the element is
appended at the end (position 1, child count grows from 1 to 2),
contrary to the claimed error. -/
theorem c7_counterexample :
    (insertElement exTree [] emptyNode (some (.ref [0, 0]))).map
        (fun r => (r.2, childCountAt r.1 []))
      = .ok (1, 2) := by
  rfl

/-- Witness for `c7_insert_failure_modes` on `exTree`: an unresolvable
`before` name propagates the resolution error, and a negative index
appends at the end. -/
theorem c7_insert_failure_modes_witness :
    insertElement exTree [] emptyNode (some (.byName "zzz"))
        = .error .resolution
    ∧ insertElement exTree [] emptyNode (some (.idx (-2)))
        = .ok (insertedTree exTree [] emptyNode 1, 1) := by
  constructor
  · exact (c7_insert_failure_modes exTree [] emptyNode).1 "zzz" .resolution rfl
  · exact (c7_insert_failure_modes exTree [] emptyNode).2.2.2.2.1 (-2) (by norm_num)

/-!
## Geometry state machine (claims C8, C9, C10)

The LB revision's mutable geometry state, threaded explicitly.  The tree
*shape* (structure plus the geometry inputs, which `setDirty`/`update`
never change) is separated from the per-node *mutable state* (the four
caches, `dirty`, `layoutReady`, and counters for the notification
callbacks), which is a total map from addresses.  Host-supplied
callbacks are external code; firing one is modelled by bumping its
counter.  Host-supplied closures for `top`/`left` and content sizes are
modelled by per-node constants; `_width`/`_height` can hold a number or
one of the core-installed percentage capabilities (`SizeCap`).
-/

/-- A `_width`/`_height` input slot of the geometry model. -/
inductive SizeIn where
  | unset
  | num (q : ℚ)
  | cap (c : SizeCap)
deriving DecidableEq, Repr

/-- Immutable per-node configuration (geometry inputs). -/
structure Cfg where
  topIn : ℚ := 0
  leftIn : ℚ := 0
  wIn : SizeIn := .unset
  hIn : SizeIn := .unset
  padTop : ℚ := 0
  padLeft : ℚ := 0
  padBottom : ℚ := 0
  padRight : ℚ := 0
  marTop : ℚ := 0
  marLeft : ℚ := 0
  marBottom : ℚ := 0
  marRight : ℚ := 0
  flexMode : FlexMode := .none
  hAlign : HAlign := .left
  vAlign : VAlign := .top
  flexGrow : ℚ := 0
  ignoreLayout : Bool := false
  volatile : Bool := false
  enabled : Bool := true
  /-- The node type's `contentWidth` capability (natural size). -/
  contentW : ℚ := 0
  /-- The node type's `contentHeight` capability. -/
  contentH : ℚ := 0
  /-- `_xFill` (the computed-width fill factor). -/
  xFill : ℚ := 0
  /-- `_yFill` (the computed-height fill factor). -/
  yFill : ℚ := 0
deriving DecidableEq, Repr

/-- Mutable per-node state: caches, flags and notification counters. -/
structure MutState where
  cW : Option ℚ := none
  cH : Option ℚ := none
  cT : Option ℚ := none
  cL : Option ℚ := none
  dirty : Bool := true
  layoutReady : Bool := false
  /-- `onUpdateCallback` firings (the per-tick callback). -/
  nUpd : ℕ := 0
  /-- `onBeforeLayoutResolveCallback` firings. -/
  nBL : ℕ := 0
  /-- `onBeforeRedrawCallback` firings. -/
  nBR : ℕ := 0
  /-- Protected `onUpdate()` hook invocations (the redraw hook). -/
  nOU : ℕ := 0
  /-- `onAfterRedrawCallback` firings. -/
  nAR : ℕ := 0
deriving DecidableEq, Repr

/-- The mutable state of the whole tree. -/
abbrev GSt := Addr → MutState

/-- The tree shape. -/
inductive Shape where
  | node (cfg : Cfg) (cs : List Shape)

namespace Shape

def cfg : Shape → Cfg
  | node c _ => c

def children : Shape → List Shape
  | node _ cs => cs

def atAddr : Shape → Addr → Option Shape
  | t, [] => some t
  | node _ cs, i :: rest =>
    match cs.get? i with
    | some c => atAddr c rest
    | none => none

end Shape

/-- Inert default for dangling addresses: a disabled leaf. -/
def emptyShape : Shape := .node { enabled := false } []

/-- Total config read. -/
def cfgAt (root : Shape) (a : Addr) : Cfg :=
  ((root.atAddr a).getD emptyShape).cfg

/-- Total child-count read. -/
def kidsAt (root : Shape) (a : Addr) : ℕ :=
  ((root.atAddr a).getD emptyShape).children.length

/-- `this._parent ? this._parent._flexMode : "none"`. -/
def parentLayoutAt (root : Shape) : Addr → FlexMode
  | [] => .none
  | a => (cfgAt root a.dropLast).flexMode

/-- Point update of the tree state. -/
def upd (σ : GSt) (a : Addr) (f : MutState → MutState) : GSt :=
  Function.update σ a (f (σ a))

theorem upd_same (σ : GSt) (a : Addr) (f : MutState → MutState) :
    upd σ a f a = f (σ a) := by
  simp [upd]

theorem upd_other (σ : GSt) (a : Addr) (f : MutState → MutState)
    (b : Addr) (h : b ≠ a) : upd σ a f b = σ b := by
  simp [upd, Function.update_noteq h]

/-!
### `setDirty` (claim C8)

`setDirty(force?)` (LB lines 885-904) walks the tree both downwards
(children, when flexing or volatile) and upwards (the parent, when the
node participates in the parent's flex flow).  The recursion terminates
in the source because re-entering an already-dirty node without `force`
is a no-op; the model below runs the same computation as two
structurally-recursive phases justified by that observation:

* `dirtyDown` performs a node's transition and its downward recursion.
  A child's own upward call (`this._parent!.setDirty()`) targets the
  node that has just set `this.dirty = true` *before* looping over its
  children, so that call is the no-op branch and needs no model.
* `setDirtyGo` walks from the subtree root down to the target node,
  replaying on the way back up the chain of `this._parent!.setDirty()`
  calls: an ancestor is called iff its child's call transitioned it (or
  forced it) and the child participates in this ancestor's flex flow
  (`transitioned`); a called ancestor that is not itself dirty clears
  its state and re-runs the downward recursion over all its children —
  in which the originating child, already dirty, is skipped.
-/

/-- The state transition of one node (clear the four caches, set
`dirty`, reset `layoutReady`). -/
def clearMut (m : MutState) : MutState :=
  { m with cW := none, cH := none, cT := none, cL := none,
           dirty := true, layoutReady := false }

mutual

/-- A node's dirty transition plus the downward recursion
(LB lines 887-897). -/
def dirtyDown (force : Bool) : Shape → Addr → GSt → GSt
  | .node cfg cs, b, σ =>
    let σ1 := upd σ b clearMut
    if cfg.flexMode ≠ .none ∨ cfg.volatile then
      dirtyDownKids force cs b 0 σ1
    else σ1

/-- `for (...) this.children[i].setDirty(force)`: an already-dirty child
is a no-op unless forced. -/
def dirtyDownKids (force : Bool) : List Shape → Addr → ℕ → GSt → GSt
  | [], _, _, σ => σ
  | c :: rest, b, j, σ =>
    let σ1 :=
      if (σ (b ++ [j])).dirty ∧ force = false then σ
      else dirtyDown force c (b ++ [j]) σ
    dirtyDownKids force rest b (j + 1) σ1

end

/-- Whether the `setDirty` call on the node at `base ++ path` results in
a `this._parent!.setDirty()` call escaping the subtree rooted at `base`:
the target must transition (or be forced), and each node along the way
must transition (it is called only if its child's slot participates in
its flex flow — the child's `this.parentLayout != "none"` test — and it
must not already be dirty, upward calls carrying no `force`). -/
def transitioned (force : Bool) : Shape → Addr → List ℕ → GSt → Bool
  | _, base, [], σ => !(σ base).dirty || force
  | .node cfg cs, base, i :: rest, σ =>
    match cs.get? i with
    | none => false
    | some c =>
      transitioned force c (base ++ [i]) rest σ
        && decide (cfg.flexMode ≠ .none) && !(σ base).dirty

/-- `setDirty(force)` on the node at `base ++ path`, processed from the
subtree root `sh` at `base`. -/
def setDirtyGo (force : Bool) : Shape → Addr → List ℕ → GSt → GSt
  | sh, base, [], σ =>
    if (σ base).dirty ∧ force = false then σ
    else dirtyDown force sh base σ
  | .node cfg cs, base, i :: rest, σ =>
    match cs.get? i with
    | none => σ
    | some c =>
      let σ1 := setDirtyGo force c (base ++ [i]) rest σ
      if transitioned force (.node cfg cs) base (i :: rest) σ = true then
        dirtyDown false (.node cfg cs) base σ1
      else σ1

/-- Public `setDirty` on the node at address `a`. -/
def setDirtyAt (root : Shape) (a : Addr) (force : Bool) (σ : GSt) : GSt :=
  setDirtyGo force root [] a σ

/-! ### Address prefix facts -/

theorem not_child_prefix_self (b : Addr) (j : ℕ) : ¬ ((b ++ [j]) <+: b) := by
  intro h
  have := h.length_le
  simp at this

theorem sibling_prefix_eq {b : Addr} {j j' : ℕ} {x : Addr}
    (h1 : (b ++ [j]) <+: x) (h2 : (b ++ [j']) <+: x) : j = j' := by
  have hlen : (b ++ [j]).length ≤ (b ++ [j']).length := by simp
  have h3 : (b ++ [j]) <+: (b ++ [j']) :=
    List.prefix_of_prefix_length_le h1 h2 hlen
  have h4 : (b ++ [j]) = (b ++ [j']) :=
    h3.eq_of_length (by simp)
  have h5 : [j] = [j'] := List.append_cancel_left h4
  simpa using h5

theorem parent_prefix_of_child {b : Addr} {j : ℕ} {x : Addr}
    (h : (b ++ [j]) <+: x) : b <+: x :=
  ((List.prefix_append b [j]).trans h)

/-! ### `dirtyDown` properties -/

/-- Everything claim C8 needs of a node's transition: the node's state
is cleared and marked; nothing outside its subtree moves; with the
children guard all direct children end dirty; without it nothing but the
node itself moves; an already-dirty child's subtree is untouched when
`force` is off. -/
def DDp (force : Bool) (sh : Shape) (b : Addr) (σ : GSt) : Prop :=
  (dirtyDown force sh b σ) b = clearMut (σ b)
  ∧ (∀ x, ¬ (b <+: x) → (dirtyDown force sh b σ) x = σ x)
  ∧ ((sh.cfg.flexMode ≠ .none ∨ sh.cfg.volatile = true) →
      ∀ j, j < sh.children.length →
        ((dirtyDown force sh b σ) (b ++ [j])).dirty = true)
  ∧ (¬(sh.cfg.flexMode ≠ .none ∨ sh.cfg.volatile = true) →
      ∀ x, x ≠ b → (dirtyDown force sh b σ) x = σ x)
  ∧ (∀ j, (σ (b ++ [j])).dirty = true → force = false →
      ∀ x, (b ++ [j]) <+: x → (dirtyDown force sh b σ) x = σ x)

/-- The corresponding facts for the children loop starting at slot
`j0`. -/
def DKp (force : Bool) (cs : List Shape) (b : Addr) (j0 : ℕ) (σ : GSt) : Prop :=
  (∀ x, (∀ j, j0 ≤ j → j < j0 + cs.length → ¬ ((b ++ [j]) <+: x)) →
      (dirtyDownKids force cs b j0 σ) x = σ x)
  ∧ (∀ j, j0 ≤ j → j < j0 + cs.length →
      ((dirtyDownKids force cs b j0 σ) (b ++ [j])).dirty = true)
  ∧ (∀ j, j0 ≤ j → j < j0 + cs.length →
      (σ (b ++ [j])).dirty = true → force = false →
      ∀ x, (b ++ [j]) <+: x → (dirtyDownKids force cs b j0 σ) x = σ x)

theorem dirtyDown_spec_all : ∀ n : ℕ,
    (∀ force (sh : Shape) (b : Addr) (σ : GSt), sizeOf sh < n → DDp force sh b σ)
    ∧ (∀ force (cs : List Shape) (b : Addr) (j0 : ℕ) (σ : GSt),
        sizeOf cs < n → DKp force cs b j0 σ) := by
  intro n
  induction n using Nat.strong_induction_on with
  | _ n IH =>
  have hK : ∀ force (cs : List Shape) (b : Addr) (j0 : ℕ) (σ : GSt),
      sizeOf cs < n → DKp force cs b j0 σ := by
    intro force cs
    induction cs with
    | nil =>
      intro b j0 σ _
      refine ⟨fun x _ => rfl, ?_, ?_⟩ <;> (intro j h1 h2; simp at h2; omega)
    | cons c rest ihrest =>
      intro b j0 σ hsz
      have hszc : sizeOf c < sizeOf (c :: rest) := by
        simp only [List.cons.sizeOf_spec]
        omega
      have hszrest : sizeOf rest < n := by
        have : sizeOf rest < sizeOf (c :: rest) := by
          simp only [List.cons.sizeOf_spec]
          omega
        omega
      have hDD : ∀ σ' : GSt, DDp force c (b ++ [j0]) σ' := fun σ' =>
        (IH (sizeOf (c :: rest)) hsz).1 force c (b ++ [j0]) σ' hszc
      show DKp force (c :: rest) b j0 σ
      unfold DKp dirtyDownKids
      by_cases hskip : (σ (b ++ [j0])).dirty ∧ force = false
      · rw [if_pos hskip]
        obtain ⟨ih1, ih2, ih3⟩ := ihrest b (j0 + 1) σ hszrest
        refine ⟨?_, ?_, ?_⟩
        · intro x hx
          exact ih1 x (fun j hj1 hj2 => hx j (by omega) (by simp; omega))
        · intro j h1 h2
          rcases Nat.lt_or_ge j0 j with h | h
          · exact ih2 j (by omega) (by simp at h2; omega)
          · have hj : j = j0 := by omega
            subst hj
            rw [ih1 (b ++ [j]) (fun j' hj1 hj2 hpre => by
              have := sibling_prefix_eq hpre (List.prefix_rfl)
              omega)]
            exact hskip.1
        · intro j h1 h2 hdirty hforce x hx
          rcases Nat.lt_or_ge j0 j with h | h
          · exact ih3 j (by omega) (by simp at h2; omega) hdirty hforce x hx
          · have hj : j = j0 := by omega
            subst hj
            exact ih1 x (fun j' hj1 hj2 hpre => by
              have := sibling_prefix_eq hpre hx
              omega)
      · rw [if_neg hskip]
        obtain ⟨dd1, dd2, dd3, dd4, dd5⟩ := hDD σ
        obtain ⟨ih1, ih2, ih3⟩ :=
          ihrest b (j0 + 1) (dirtyDown force c (b ++ [j0]) σ) hszrest
        refine ⟨?_, ?_, ?_⟩
        · intro x hx
          rw [ih1 x (fun j hj1 hj2 => hx j (by omega) (by simp; omega))]
          exact dd2 x (fun hpre =>
            absurd hpre (hx j0 (by omega) (by simp)))
        · intro j h1 h2
          rcases Nat.lt_or_ge j0 j with h | h
          · exact ih2 j (by omega) (by simp at h2; omega)
          · have hj : j = j0 := by omega
            subst hj
            rw [ih1 (b ++ [j]) (fun j' hj1 hj2 hpre => by
              have := sibling_prefix_eq hpre (List.prefix_rfl)
              omega)]
            rw [dd1]
            rfl
        · intro j h1 h2 hdirty hforce x hx
          rcases Nat.lt_or_ge j0 j with h | h
          · have hfr : dirtyDown force c (b ++ [j0]) σ (b ++ [j]) = σ (b ++ [j]) :=
              dd2 (b ++ [j]) (fun hpre => by
                have := sibling_prefix_eq hpre (List.prefix_rfl (l := b ++ [j]))
                omega)
            rw [ih3 j (by omega) (by simp at h2; omega) (hfr ▸ hdirty) hforce x hx]
            exact dd2 x (fun hpre => by
              have := sibling_prefix_eq hpre hx
              omega)
          · have hj : j = j0 := by omega
            subst hj
            exact absurd ⟨hdirty, hforce⟩ hskip
  refine ⟨?_, hK⟩
  intro force sh b σ hsz
  rcases sh with ⟨cfg, cs⟩
  have hszcs : sizeOf cs < n := by
    have : sizeOf cs < sizeOf (Shape.node cfg cs) := by
      simp only [Shape.node.sizeOf_spec]
      omega
    omega
  unfold DDp dirtyDown
  by_cases hguard : cfg.flexMode ≠ .none ∨ cfg.volatile = true
  · rw [if_pos hguard]
    obtain ⟨k1, k2, k3⟩ := hK force cs b 0 (upd σ b clearMut) hszcs
    refine ⟨?_, ?_, ?_, ?_, ?_⟩
    · rw [k1 b (fun j _ _ => not_child_prefix_self b j), upd_same]
    · intro x hx
      rw [k1 x (fun j _ _ hpre => hx (parent_prefix_of_child hpre))]
      exact upd_other σ b clearMut x (fun h => hx (h ▸ List.prefix_rfl))
    · intro _ j hj
      exact k2 j (by omega) (by simpa [Shape.children] using hj)
    · intro hng
      exact absurd hguard (by simpa [Shape.cfg] using hng)
    · intro j hdirty hforce x hx
      have hxb : x ≠ b := by
        intro h
        exact not_child_prefix_self b j (h ▸ hx)
      have hupd : upd σ b clearMut (b ++ [j]) = σ (b ++ [j]) :=
        upd_other σ b clearMut _ (fun h =>
          not_child_prefix_self b j (by rw [h]))
      by_cases hjlen : j < cs.length
      · rw [k3 j (by omega) (by omega) (hupd ▸ hdirty) hforce x hx]
        exact upd_other σ b clearMut x hxb
      · rw [k1 x (fun j' _ hj' hpre => by
          have := sibling_prefix_eq hpre hx
          omega)]
        exact upd_other σ b clearMut x hxb
  · rw [if_neg hguard]
    refine ⟨upd_same σ b clearMut, ?_, ?_, ?_, ?_⟩
    · intro x hx
      exact upd_other σ b clearMut x (fun h => hx (h ▸ List.prefix_rfl))
    · intro hg
      exact absurd (by simpa [Shape.cfg] using hg) hguard
    · intro _ x hx
      exact upd_other σ b clearMut x hx
    · intro j _ _ x hx
      exact upd_other σ b clearMut x (fun h =>
        not_child_prefix_self b j (h ▸ hx))

/-- Entry points for the two specifications. -/
theorem dirtyDown_spec (force : Bool) (sh : Shape) (b : Addr) (σ : GSt) :
    DDp force sh b σ :=
  (dirtyDown_spec_all (sizeOf sh + 1)).1 force sh b σ (by omega)

/-! ### `setDirtyGo` properties -/

theorem transitioned_false_of_dirty (force : Bool) :
    ∀ (path : List ℕ) (sh : Shape) (base : Addr) (σ : GSt),
    (σ (base ++ path)).dirty = true → force = false →
    transitioned force sh base path σ = false := by
  intro path
  induction path with
  | nil =>
    intro sh base σ hd hf
    simp only [List.append_nil] at hd
    unfold transitioned
    simp [hd, hf]
  | cons i rest ih =>
    intro sh base σ hd hf
    rcases sh with ⟨cfg, cs⟩
    unfold transitioned
    cases hget : cs.get? i with
    | none => rfl
    | some c =>
      have : transitioned force c (base ++ [i]) rest σ = false := by
        apply ih c (base ++ [i]) σ _ hf
        rw [← hd]
        congr 1
        simp
      simp [this]

theorem transitioned_imp_bottom (force : Bool) :
    ∀ (path : List ℕ) (sh : Shape) (base : Addr) (σ : GSt),
    transitioned force sh base path σ = true →
    ((σ (base ++ path)).dirty = false ∨ force = true) := by
  intro path
  induction path with
  | nil =>
    intro sh base σ h
    rcases sh with ⟨cfg, cs⟩
    unfold transitioned at h
    simp only [List.append_nil]
    rcases Bool.or_eq_true_iff.mp h with h | h
    · exact Or.inl (by simpa using h)
    · exact Or.inr h
  | cons i rest ih =>
    intro sh base σ h
    rcases sh with ⟨cfg, cs⟩
    unfold transitioned at h
    cases hget : cs.get? i with
    | none => rw [hget] at h; cases h
    | some c =>
      rw [hget] at h
      have h1 : transitioned force c (base ++ [i]) rest σ = true := by
        rcases Bool.and_eq_true_iff.mp h with ⟨h2, _⟩
        exact (Bool.and_eq_true_iff.mp h2).1
      have := ih c (base ++ [i]) σ h1
      rwa [show (base ++ [i]) ++ rest = base ++ i :: rest by simp] at this

theorem dirty_after_of_transitioned (force : Bool) :
    ∀ (path : List ℕ) (sh : Shape) (base : Addr) (σ : GSt),
    transitioned force sh base path σ = true →
    ((setDirtyGo force sh base path σ) base).dirty = true := by
  intro path
  induction path with
  | nil =>
    intro sh base σ h
    rcases sh with ⟨cfg, cs⟩
    unfold transitioned at h
    unfold setDirtyGo
    have hcond : ¬ ((σ base).dirty = true ∧ force = false) := by
      rcases Bool.or_eq_true_iff.mp h with h | h
      · intro hc
        rw [hc.1] at h
        simp at h
      · intro hc
        rw [h] at hc
        simp at hc
    rw [if_neg hcond, (dirtyDown_spec force (.node cfg cs) base σ).1]
    rfl
  | cons i rest ih =>
    intro sh base σ h
    rcases sh with ⟨cfg, cs⟩
    unfold setDirtyGo
    have hget : ∃ c, cs.get? i = some c := by
      unfold transitioned at h
      cases hg : cs.get? i with
      | none => rw [hg] at h; cases h
      | some c => exact ⟨c, rfl⟩
    obtain ⟨c, hc⟩ := hget
    rw [hc]
    dsimp only
    rw [if_pos h, (dirtyDown_spec false (.node cfg cs) base _).1]
    rfl

theorem setDirtyGo_frame (force : Bool) :
    ∀ (path : List ℕ) (sh : Shape) (base : Addr) (σ : GSt) (x : Addr),
    ¬ (base <+: x) → (setDirtyGo force sh base path σ) x = σ x := by
  intro path
  induction path with
  | nil =>
    intro sh base σ x hx
    rcases sh with ⟨cfg, cs⟩
    unfold setDirtyGo
    by_cases h : (σ base).dirty = true ∧ force = false
    · rw [if_pos h]
    · rw [if_neg h]
      exact (dirtyDown_spec force (.node cfg cs) base σ).2.1 x hx
  | cons i rest ih =>
    intro sh base σ x hx
    rcases sh with ⟨cfg, cs⟩
    unfold setDirtyGo
    cases hget : cs.get? i with
    | none => rfl
    | some c =>
      dsimp only
      have hx' : ¬ ((base ++ [i]) <+: x) := fun h =>
        hx (parent_prefix_of_child h)
      by_cases htr : transitioned force (.node cfg cs) base (i :: rest) σ = true
      · rw [if_pos htr]
        rw [(dirtyDown_spec false (.node cfg cs) base _).2.1 x hx]
        exact ih c (base ++ [i]) σ x hx'
      · rw [if_neg htr]
        exact ih c (base ++ [i]) σ x hx'

/-- Full specification of a `setDirty` call on the node at
`base ++ path`, seen from the subtree root `sh` at `base`. -/
def SGp (force : Bool) (sh : Shape) (base : Addr) (path : List ℕ) (σ : GSt) : Prop :=
  ∀ tsh, sh.atAddr path = some tsh →
    ((σ (base ++ path)).dirty = true → force = false →
      setDirtyGo force sh base path σ = σ)
    ∧ (((σ (base ++ path)).dirty = false ∨ force = true) →
        ((setDirtyGo force sh base path σ) (base ++ path)
            = clearMut (σ (base ++ path)))
        ∧ ((tsh.cfg.flexMode ≠ .none ∨ tsh.cfg.volatile = true) →
            ∀ j, j < tsh.children.length →
              ((setDirtyGo force sh base path σ) (base ++ path ++ [j])).dirty = true)
        ∧ (¬(tsh.cfg.flexMode ≠ .none ∨ tsh.cfg.volatile = true) →
            ∀ x, (base ++ path) <+: x → x ≠ base ++ path →
              (setDirtyGo force sh base path σ) x = σ x)
        ∧ (∀ pp i psh, path = pp ++ [i] → sh.atAddr pp = some psh →
            (psh.cfg.flexMode ≠ .none →
              ((setDirtyGo force sh base path σ) (base ++ pp)).dirty = true)
            ∧ (psh.cfg.flexMode = .none →
              (setDirtyGo force sh base path σ) (base ++ pp) = σ (base ++ pp))))

theorem setDirtyGo_spec (force : Bool) :
    ∀ (path : List ℕ) (sh : Shape) (base : Addr) (σ : GSt),
    SGp force sh base path σ := by
  intro path
  induction path with
  | nil =>
    intro sh base σ tsh hv
    rcases sh with ⟨cfg, cs⟩
    have htsh : tsh = Shape.node cfg cs := by
      simpa [Shape.atAddr] using hv.symm
    subst htsh
    simp only [List.append_nil]
    unfold setDirtyGo
    constructor
    · intro hd hf
      rw [if_pos ⟨hd, hf⟩]
    · intro hB
      have hcond : ¬ ((σ base).dirty = true ∧ force = false) := by
        rintro ⟨h1, h2⟩
        rcases hB with h | h
        · rw [h1] at h; cases h
        · rw [h2] at h; cases h
      rw [if_neg hcond]
      obtain ⟨dd1, dd2, dd3, dd4, dd5⟩ :=
        dirtyDown_spec force (.node cfg cs) base σ
      refine ⟨dd1, ?_, ?_, ?_⟩
      · intro hg j hj
        exact dd3 hg j hj
      · intro hg x h1 h2
        exact dd4 hg x h2
      · intro pp i psh hpi
        exact absurd hpi (by cases pp <;> simp)
  | cons i rest ih =>
    intro sh base σ tsh hv
    rcases sh with ⟨cfg, cs⟩
    have hget : ∃ c, cs.get? i = some c ∧ c.atAddr rest = some tsh := by
      unfold Shape.atAddr at hv
      cases hg : cs.get? i with
      | none => rw [hg] at hv; cases hv
      | some c => rw [hg] at hv; exact ⟨c, rfl, hv⟩
    obtain ⟨c, hc, hrest⟩ := hget
    have ht : base ++ (i :: rest) = (base ++ [i]) ++ rest := by simp
    have hIH := ih c (base ++ [i]) σ tsh hrest
    unfold setDirtyGo
    rw [hc]
    dsimp only
    by_cases htr : transitioned force (.node cfg cs) base (i :: rest) σ = true
    · -- the call escaped to this node, which transitions
      have htr' := htr
      unfold transitioned at htr'
      rw [hc] at htr'
      have htrc : transitioned force c (base ++ [i]) rest σ = true :=
        (Bool.and_eq_true_iff.mp (Bool.and_eq_true_iff.mp htr').1).1
      have hflex : cfg.flexMode ≠ .none := by
        have := (Bool.and_eq_true_iff.mp (Bool.and_eq_true_iff.mp htr').1).2
        simpa using this
      have hB : (σ (base ++ (i :: rest))).dirty = false ∨ force = true := by
        have := transitioned_imp_bottom force rest c (base ++ [i]) σ htrc
        rwa [← ht] at this
      rw [if_pos htr]
      have hdc : ((setDirtyGo force c (base ++ [i]) rest σ) (base ++ [i])).dirty
          = true := dirty_after_of_transitioned force rest c (base ++ [i]) σ htrc
      -- the re-run of the downward pass skips the already-dirty child
      have hskip : ∀ x, (base ++ [i]) <+: x →
          (dirtyDown false (.node cfg cs) base
            (setDirtyGo force c (base ++ [i]) rest σ)) x
          = (setDirtyGo force c (base ++ [i]) rest σ) x := by
        intro x hx
        exact (dirtyDown_spec false (.node cfg cs) base _).2.2.2.2 i hdc rfl x hx
      constructor
      · intro hd hf
        rw [transitioned_false_of_dirty force (i :: rest) (.node cfg cs) base σ hd hf]
          at htr
        cases htr
      · intro _
        rw [ht] at hB
        obtain ⟨s1, s2, s3, s4⟩ := hIH.2 hB
        simp only [ht]
        have hpt : (base ++ [i]) <+: (base ++ [i]) ++ rest :=
          List.prefix_append _ _
        refine ⟨?_, ?_, ?_, ?_⟩
        · rw [hskip _ hpt]
          exact s1
        · intro hg j hj
          have hptj : (base ++ [i]) <+: ((base ++ [i]) ++ rest) ++ [j] :=
            hpt.trans (List.prefix_append _ _)
          rw [hskip _ hptj]
          exact s2 hg j hj
        · intro hg x h1 h2
          rw [hskip _ (hpt.trans h1)]
          exact s3 hg x h1 h2
        · intro pp i' psh hpi hpsh
          rcases pp with _ | ⟨i2, pp'⟩
          · -- the parent is this node
            have hpsh' : psh = Shape.node cfg cs := by
              simpa [Shape.atAddr] using hpsh.symm
            subst hpsh'
            refine ⟨fun _ => ?_, fun hnone => ?_⟩
            · rw [List.append_nil,
                (dirtyDown_spec false (.node cfg cs) base _).1]
              rfl
            · exact absurd (by simpa [Shape.cfg] using hnone) hflex
          · -- the parent is inside the child's subtree
            simp only [List.cons_append] at hpi
            have hii : i = i2 := by
              injection hpi with h1 h2
            have hrr : rest = pp' ++ [i'] := by
              injection hpi with h1 h2
            subst hii
            have hpsh' : c.atAddr pp' = some psh := by
              unfold Shape.atAddr at hpsh
              rwa [hc] at hpsh
            have hs4 := s4 pp' i' psh hrr hpsh'
            have hppaddr : base ++ (i :: pp') = (base ++ [i]) ++ pp' := by simp
            have hppre : (base ++ [i]) <+: (base ++ (i :: pp')) := by
              rw [hppaddr]
              exact List.prefix_append _ _
            refine ⟨fun hne => ?_, fun hnone => ?_⟩
            · rw [hskip _ hppre, hppaddr]
              exact hs4.1 hne
            · rw [hskip _ hppre, hppaddr]
              exact hs4.2 hnone
    · rw [if_neg htr]
      constructor
      · intro hd hf
        exact hIH.1 (by rwa [ht] at hd) hf
      · intro hB
        obtain ⟨s1, s2, s3, s4⟩ := hIH.2 (by rwa [ht] at hB)
        refine ⟨?_, ?_, ?_, ?_⟩
        · rw [ht]
          exact s1
        · intro hg j hj
          rw [ht]
          exact s2 hg j hj
        · intro hg x h1 h2
          exact s3 hg x (by rwa [ht] at h1) (by rwa [ht] at h2)
        · intro pp i' psh hpi hpsh
          rcases pp with _ | ⟨i2, pp'⟩
          · -- the parent is this node; the upward call did not transition it
            simp only [List.nil_append] at hpi
            have hii : i = i' := by
              injection hpi with h1 h2
            have hr0 : rest = [] := by
              injection hpi with h1 h2
            subst hii hr0
            have hpsh' : psh = Shape.node cfg cs := by
              simpa [Shape.atAddr] using hpsh.symm
            subst hpsh'
            have hbot : transitioned force c (base ++ [i]) [] σ = true := by
              unfold transitioned
              rcases (by rwa [ht] at hB :
                  (σ ((base ++ [i]) ++ [])).dirty = false ∨ force = true) with h | h
              · rw [List.append_nil] at h
                simp [h]
              · simp [h]
            have hfr : (setDirtyGo force c (base ++ [i]) [] σ) base = σ base :=
              setDirtyGo_frame force [] c (base ++ [i]) σ base
                (not_child_prefix_self base i)
            have hnf : cfg.flexMode = .none ∨ (σ base).dirty = true := by
              by_cases h1 : cfg.flexMode = .none
              · exact Or.inl h1
              · right
                by_cases h2 : (σ base).dirty = true
                · exact h2
                · exfalso
                  apply htr
                  unfold transitioned
                  rw [hc]
                  dsimp only
                  have h2' : (σ base).dirty = false := by
                    simpa using h2
                  simp [hbot, h1, h2']
            simp only [List.append_nil]
            refine ⟨fun hne => ?_, fun hnone => ?_⟩
            · rcases hnf with h | h
              · exact absurd h (by simpa [Shape.cfg] using hne)
              · rw [hfr]
                exact h
            · exact hfr
          · simp only [List.cons_append] at hpi
            have hii : i = i2 := by
              injection hpi with h1 h2
            have hrr : rest = pp' ++ [i'] := by
              injection hpi with h1 h2
            subst hii
            have hpsh' : c.atAddr pp' = some psh := by
              unfold Shape.atAddr at hpsh
              rwa [hc] at hpsh
            have hs4 := s4 pp' i' psh hrr hpsh'
            have hppaddr : base ++ (i :: pp') = (base ++ [i]) ++ pp' := by simp
            refine ⟨fun hne => ?_, fun hnone => ?_⟩
            · rw [hppaddr]
              exact hs4.1 hne
            · rw [hppaddr]
              exact hs4.2 hnone

/-- Concrete witness tree for C8: a horizontal flex root with one plain
child. -/
def c8Root : Shape := Shape.node { flexMode := .horizontal } [Shape.node {} []]

/-- Witness state for C8: every node starts clean and layout-ready. -/
def c8sigma : GSt := fun _ => { dirty := false, layoutReady := true }

/-- C8: `setDirty` without `force` is a no-op on an already-dirty node; on
an actual transition (or with `force`) it resets the node's state to
`clearMut` (all four cached geometry values and `layoutReady` cleared,
`dirty` set), dirties every direct child exactly when the node's
`flexMode` is not `none` or the node is `volatile` (otherwise the rest of
the subtree is untouched), and marks the parent dirty exactly when the
parent's `flexMode` is not `none` (otherwise the parent's state is
unchanged). -/
theorem c8_set_dirty (root : Shape) (a : Addr) (force : Bool) (σ : GSt)
    (tsh : Shape) (hv : root.atAddr a = some tsh) :
    ((σ a).dirty = true → force = false → setDirtyAt root a force σ = σ)
    ∧ (((σ a).dirty = false ∨ force = true) →
        ((setDirtyAt root a force σ) a = clearMut (σ a))
        ∧ ((tsh.cfg.flexMode ≠ .none ∨ tsh.cfg.volatile = true) →
            ∀ j, j < tsh.children.length →
              ((setDirtyAt root a force σ) (a ++ [j])).dirty = true)
        ∧ (¬(tsh.cfg.flexMode ≠ .none ∨ tsh.cfg.volatile = true) →
            ∀ x, a <+: x → x ≠ a → (setDirtyAt root a force σ) x = σ x)
        ∧ (∀ pp i psh, a = pp ++ [i] → root.atAddr pp = some psh →
            (psh.cfg.flexMode ≠ .none →
              ((setDirtyAt root a force σ) pp).dirty = true)
            ∧ (psh.cfg.flexMode = .none →
              (setDirtyAt root a force σ) pp = σ pp))) :=
  setDirtyGo_spec force a root [] σ tsh hv

/-- C8 witness: dirtying the clean child of a clean horizontal flex root
clears the child's state and marks the root dirty. -/
theorem c8_set_dirty_witness :
    c8Root.atAddr [0] = some (Shape.node {} [])
    ∧ (setDirtyAt c8Root [0] false c8sigma) [0] = clearMut (c8sigma [0])
    ∧ ((setDirtyAt c8Root [0] false c8sigma) []).dirty = true := by
  have h := c8_set_dirty c8Root [0] false c8sigma (Shape.node {} []) (by rfl)
  refine ⟨by rfl, ?_, ?_⟩
  · exact (h.2 (Or.inl rfl)).1
  · exact ((h.2 (Or.inl rfl)).2.2.2 [] 0 c8Root rfl rfl).1 (by decide)

/-!
### `update` and the geometry getters (claims C9, C10)

`update()` (P1 lines 1305-1328, LB lines 913-936) recurses structurally
over the tree; on an enabled node it fires `onUpdateCallback`, and when
the node is dirty it runs `resolveLayout()`, updates the children, clears
`dirty` and fires the redraw trio (`onBeforeRedrawCallback`, the
protected `onUpdate()` hook, `onAfterRedrawCallback`); a clean enabled
node only updates its children.

`resolveLayout` and the geometry getters it calls (`innerWidth`,
`outerWidth`, `childrenWidth`, `childrenMaxWidth`, `computedWidth` and
the height mirrors, P1 lines 1176-1287 and 1856-2016) form a mutually
recursive family that walks the tree both down (children sums) and up
(fill factors and the installed percentage capabilities read the
parent).  In JS these reads can cycle; the model makes them a single
function `geom` over a call tag, structurally recursive on a fuel
counter: fuel 0 returns 0 with the state unchanged (a poisoned value,
never reached on the concrete inputs used below).  Callbacks are
modelled as the per-node counters of `MutState` (a counter increment
stands for "the callback would fire here"); `this._parent!` on a parent
imagined missing (a crash in JS) is modelled as the value 0.

The getters `get width()`, `get height()`, `get top()` and `get left()`
are pure field reads (a function-valued or null slot reads as 0); the
model's `topIn`/`leftIn` cover the numeric case of `_top`/`_left`.
-/

/-- `get width()`: `typeof this._width == "number" ? this._width : 0`. -/
def widthPure (root : Shape) (a : Addr) : ℚ :=
  match (cfgAt root a).wIn with
  | .num q => q
  | _ => 0

/-- `get height()`. -/
def heightPure (root : Shape) (a : Addr) : ℚ :=
  match (cfgAt root a).hIn with
  | .num q => q
  | _ => 0

/-- `get top()` (numeric `_top`). -/
def topPure (root : Shape) (a : Addr) : ℚ := (cfgAt root a).topIn

/-- `get left()` (numeric `_left`). -/
def leftPure (root : Shape) (a : Addr) : ℚ := (cfgAt root a).leftIn

/-- `this.children.reduce((v, e) => v + (e._enabled ? e._flexGrow : 0), 0)`. -/
def growCountAt (root : Shape) (a : Addr) : ℚ :=
  (((root.atAddr a).getD emptyShape).children.map Shape.cfg).foldl
    (fun v c => v + (if c.enabled then c.flexGrow else 0)) 0

/-- `get widthReady()` (P1 lines 2194-2196): cached, or an own width
with no horizontal parent flow claiming it. -/
def widthReadyAt (root : Shape) (a : Addr) (σ : GSt) : Bool :=
  decide ((σ a).cW ≠ none)
    || (decide ((cfgAt root a).wIn ≠ SizeIn.unset)
        && ((cfgAt root a).ignoreLayout || decide (a = [])
            || decide (parentLayoutAt root a ≠ FlexMode.horizontal)))

/-- `get heightReady()`. -/
def heightReadyAt (root : Shape) (a : Addr) (σ : GSt) : Bool :=
  decide ((σ a).cH ≠ none)
    || (decide ((cfgAt root a).hIn ≠ SizeIn.unset)
        && ((cfgAt root a).ignoreLayout || decide (a = [])
            || decide (parentLayoutAt root a ≠ FlexMode.vertical)))

/-- A call into the mutually recursive getter/resolver family. -/
inductive GCall where
  /-- `computedWidth` of the node at `a`. -/
  | cw (a : Addr)
  /-- `computedHeight`. -/
  | ch (a : Addr)
  /-- `innerWidth`. -/
  | iw (a : Addr)
  /-- `outerWidth`. -/
  | ow (a : Addr)
  /-- `innerHeight`. -/
  | ih (a : Addr)
  /-- `outerHeight`. -/
  | oh (a : Addr)
  /-- The `childrenWidth` loop over the child slots `js`. -/
  | cwk (a : Addr) (js : List ℕ)
  /-- The `childrenHeight` loop. -/
  | chk (a : Addr) (js : List ℕ)
  /-- The `childrenMaxWidth` loop. -/
  | cmw (a : Addr) (js : List ℕ)
  /-- The `childrenMaxHeight` loop. -/
  | cmh (a : Addr) (js : List ℕ)
  /-- A size capability evaluated with `this` at `a` (may return null). -/
  | cap (a : Addr) (c : SizeCap)
  /-- `resolveLayout` of the node at `a` (the value slot is unused). -/
  | rl (a : Addr)
  /-- The horizontal placement loop: remaining slots `js`, grow factor
  `gf`, running `growCount`, `growPool` and `xOffset`. -/
  | plH (a : Addr) (js : List ℕ) (gf gc gp xo : ℚ)
  /-- The vertical placement loop. -/
  | plV (a : Addr) (js : List ℕ) (gf gc gp yo : ℚ)
  /-- The vertical-alignment pass of a horizontal container
  (`height` precomputed). -/
  | alV (a : Addr) (js : List ℕ) (h : ℚ)
  /-- The horizontal-alignment pass of a vertical container. -/
  | alH (a : Addr) (js : List ℕ) (w : ℚ)
deriving Repr

/-- One step of the getter family.  The result is the returned value
(`none` is JS `null`; the state-only calls return `none`) and the state
after the call's cache writes. -/
def geom (root : Shape) : ℕ → GCall → GSt → Option ℚ × GSt
  | 0, _, σ => (none, σ)
  | n + 1, call, σ =>
    match call with
    | .cw a =>
      match (σ a).cW with
      | some v => (some v, σ)
      | none =>
        let cfg := cfgAt root a
        let p1 : Option ℚ × GSt :=
          match cfg.wIn with
          | .cap c => geom root n (.cap a c) σ
          | .num q => (some q, σ)
          | .unset =>
            match cfg.flexMode with
            | .none =>
              if 0 < cfg.flexGrow ∧ parentLayoutAt root a = .horizontal
              then (some 0, σ) else (some cfg.contentW, σ)
            | .horizontal =>
              let p := geom root n (.cwk a (List.range (kidsAt root a))) σ
              (some (p.1.getD 0 + cfg.padLeft + cfg.padRight), p.2)
            | .vertical =>
              let σr := (geom root n (.rl a) σ).2
              let p := geom root n (.cmw a (List.range (kidsAt root a))) σr
              (some (p.1.getD 0), p.2)
        let p2 : Option ℚ × GSt :=
          if cfg.xFill ≠ 0 ∧ p1.1 ≠ none then
            let pp : Option ℚ × GSt :=
              if a = [] then (some 0, p1.2) else geom root n (.cw a.dropLast) p1.2
            (some (p1.1.getD 0 + pp.1.getD 0 * cfg.xFill), pp.2)
          else p1
        (some (p2.1.getD 0), upd p2.2 a (fun m => { m with cW := p2.1 }))
    | .ch a =>
      match (σ a).cH with
      | some v => (some v, σ)
      | none =>
        let cfg := cfgAt root a
        let p1 : Option ℚ × GSt :=
          match cfg.hIn with
          | .cap c => geom root n (.cap a c) σ
          | .num q => (some q, σ)
          | .unset =>
            match cfg.flexMode with
            | .none =>
              if 0 < cfg.flexGrow ∧ parentLayoutAt root a = .vertical
              then (some 0, σ) else (some cfg.contentH, σ)
            | .horizontal =>
              let σr := (geom root n (.rl a) σ).2
              let p := geom root n (.cmh a (List.range (kidsAt root a))) σr
              (some (p.1.getD 0), p.2)
            | .vertical =>
              let p := geom root n (.chk a (List.range (kidsAt root a))) σ
              (some (p.1.getD 0 + cfg.padTop + cfg.padBottom), p.2)
        let p2 : Option ℚ × GSt :=
          if cfg.yFill ≠ 0 ∧ p1.1 ≠ none then
            let pp : Option ℚ × GSt :=
              if a = [] then (some 0, p1.2) else geom root n (.ch a.dropLast) p1.2
            (some (p1.1.getD 0 + pp.1.getD 0 * cfg.yFill), pp.2)
          else p1
        (some (p2.1.getD 0), upd p2.2 a (fun m => { m with cH := p2.1 }))
    | .iw a =>
      let p := geom root n (.cw a) σ
      (some (p.1.getD 0 - (cfgAt root a).padLeft - (cfgAt root a).padRight), p.2)
    | .ow a =>
      let p := geom root n (.cw a) σ
      (some (p.1.getD 0 + (cfgAt root a).marLeft + (cfgAt root a).marRight), p.2)
    | .ih a =>
      let p := geom root n (.ch a) σ
      (some (p.1.getD 0 - (cfgAt root a).padTop - (cfgAt root a).padBottom), p.2)
    | .oh a =>
      let p := geom root n (.ch a) σ
      (some (p.1.getD 0 + (cfgAt root a).marTop + (cfgAt root a).marBottom), p.2)
    | .cwk a js =>
      match js with
      | [] => (some 0, σ)
      | j :: rest =>
        let el := cfgAt root (a ++ [j])
        let p :=
          if el.ignoreLayout ∨ el.enabled = false then ((some 0 : Option ℚ), σ)
          else geom root n (.ow (a ++ [j])) σ
        let q := geom root n (.cwk a rest) p.2
        (some (p.1.getD 0 + q.1.getD 0), q.2)
    | .chk a js =>
      match js with
      | [] => (some 0, σ)
      | j :: rest =>
        let el := cfgAt root (a ++ [j])
        let p :=
          if el.ignoreLayout ∨ el.enabled = false then ((some 0 : Option ℚ), σ)
          else geom root n (.oh (a ++ [j])) σ
        let q := geom root n (.chk a rest) p.2
        (some (p.1.getD 0 + q.1.getD 0), q.2)
    | .cmw a js =>
      match js with
      | [] => (some 0, σ)
      | j :: rest =>
        let el := cfgAt root (a ++ [j])
        let p :=
          if el.ignoreLayout ∨ el.enabled = false then ((some 0 : Option ℚ), σ)
          else geom root n (.ow (a ++ [j])) σ
        let q := geom root n (.cmw a rest) p.2
        (some (max (p.1.getD 0) (q.1.getD 0)), q.2)
    | .cmh a js =>
      match js with
      | [] => (some 0, σ)
      | j :: rest =>
        let el := cfgAt root (a ++ [j])
        let p :=
          if el.ignoreLayout ∨ el.enabled = false then ((some 0 : Option ℚ), σ)
          else geom root n (.oh (a ++ [j])) σ
        let q := geom root n (.cmh a rest) p.2
        (some (max (p.1.getD 0) (q.1.getD 0)), q.2)
    | .cap a c =>
      match c with
      | .parentInnerWidthGated r =>
        if a = [] then (none, σ)
        else if widthReadyAt root a.dropLast σ then
          let p := geom root n (.iw a.dropLast) σ
          (some (p.1.getD 0 * r), p.2)
        else (none, σ)
      | .parentHeightRaw r =>
        if a = [] then (some 0, σ)
        else (some (heightPure root a.dropLast * r), σ)
      | .parentComputedWidthRaw r =>
        if a = [] then (some 0, σ)
        else
          let p := geom root n (.cw a.dropLast) σ
          (some (p.1.getD 0 * r), p.2)
      | .parentComputedHeightRaw r =>
        if a = [] then (some 0, σ)
        else
          let p := geom root n (.ch a.dropLast) σ
          (some (p.1.getD 0 * r), p.2)
    | .rl a =>
      let cfg := cfgAt root a
      if (σ a).layoutReady = true ∨ cfg.flexMode = .none then
        (none, upd σ a (fun m => { m with layoutReady := true }))
      else
        let gc0 := growCountAt root a
        match cfg.flexMode with
        | .vertical =>
          let ph := geom root n (.ih a) σ
          let pc := geom root n (.chk a (List.range (kidsAt root a))) ph.2
          let gp := ph.1.getD 0 - pc.1.getD 0
          let yo : ℚ :=
            if gc0 = 0 ∧ cfg.vAlign ≠ .top then
              (if cfg.vAlign = .middle then gp / 2 else gp)
            else 0
          let gf : ℚ := if gc0 ≠ 0 then gp / gc0 else 0
          let σ3 := (geom root n (.plV a (List.range (kidsAt root a)) gf gc0 gp yo) pc.2).2
          let σ4 := upd σ3 a (fun m => { m with layoutReady := true })
          let pw := geom root n (.iw a) σ4
          (none, (geom root n (.alH a (List.range (kidsAt root a)) (pw.1.getD 0)) pw.2).2)
        | _ =>
          let pw := geom root n (.iw a) σ
          let pc := geom root n (.cwk a (List.range (kidsAt root a))) pw.2
          let gp := pw.1.getD 0 - pc.1.getD 0
          let xo : ℚ :=
            if gc0 = 0 ∧ cfg.hAlign ≠ .left then
              (if cfg.hAlign = .center then gp / 2 else gp)
            else 0
          let gf : ℚ := if gc0 ≠ 0 then gp / gc0 else 0
          let σ3 := (geom root n (.plH a (List.range (kidsAt root a)) gf gc0 gp xo) pc.2).2
          let σ4 := upd σ3 a (fun m => { m with layoutReady := true })
          let ph := geom root n (.ih a) σ4
          (none, (geom root n (.alV a (List.range (kidsAt root a)) (ph.1.getD 0)) ph.2).2)
    | .plH a js gf gc gp xo =>
      match js with
      | [] => (none, σ)
      | j :: rest =>
        let el := cfgAt root (a ++ [j])
        if el.enabled = false ∨ el.ignoreLayout then
          geom root n (.plH a rest gf gc gp xo) σ
        else if el.flexGrow ≠ 0 then
          let amount : ℚ := if 1 < gc then ((⌊gf * el.flexGrow⌋ : ℤ) : ℚ) else gp
          let σ1 := upd σ (a ++ [j]) (fun m =>
            { m with cW := some (widthPure root (a ++ [j]) + amount), cH := none })
          let σ2 := upd σ1 (a ++ [j]) (fun m =>
            { m with cT := some (topPure root (a ++ [j])),
                     cL := some (xo + leftPure root (a ++ [j])), dirty := true })
          let p := geom root n (.ow (a ++ [j])) σ2
          geom root n (.plH a rest gf (gc - 1) (gp - amount) (xo + p.1.getD 0)) p.2
        else
          let σ2 := upd σ (a ++ [j]) (fun m =>
            { m with cT := some (topPure root (a ++ [j])),
                     cL := some (xo + leftPure root (a ++ [j])), dirty := true })
          let p := geom root n (.ow (a ++ [j])) σ2
          geom root n (.plH a rest gf gc gp (xo + p.1.getD 0)) p.2
    | .plV a js gf gc gp yo =>
      match js with
      | [] => (none, σ)
      | j :: rest =>
        let el := cfgAt root (a ++ [j])
        if el.enabled = false ∨ el.ignoreLayout then
          geom root n (.plV a rest gf gc gp yo) σ
        else if el.flexGrow ≠ 0 then
          let amount : ℚ := if 1 < gc then ((⌊gf * el.flexGrow⌋ : ℤ) : ℚ) else gp
          let σ1 := upd σ (a ++ [j]) (fun m =>
            { m with cH := some (heightPure root (a ++ [j]) + amount), cW := none })
          let σ2 := upd σ1 (a ++ [j]) (fun m =>
            { m with cL := some (leftPure root (a ++ [j])),
                     cT := some (yo + topPure root (a ++ [j])), dirty := true })
          let p := geom root n (.oh (a ++ [j])) σ2
          geom root n (.plV a rest gf (gc - 1) (gp - amount) (yo + p.1.getD 0)) p.2
        else
          let σ2 := upd σ (a ++ [j]) (fun m =>
            { m with cL := some (leftPure root (a ++ [j])),
                     cT := some (yo + topPure root (a ++ [j])), dirty := true })
          let p := geom root n (.oh (a ++ [j])) σ2
          geom root n (.plV a rest gf gc gp (yo + p.1.getD 0)) p.2
    | .alV a js h =>
      match js with
      | [] => (none, σ)
      | j :: rest =>
        let el := cfgAt root (a ++ [j])
        if (cfgAt root a).enabled = true ∧ el.ignoreLayout = false
            ∧ (cfgAt root a).vAlign ≠ .top then
          let p := geom root n (.oh (a ++ [j])) σ
          let diff := h - p.1.getD 0
          let σ2 := upd p.2 (a ++ [j]) (fun m =>
            { m with cT := some (m.cT.getD 0
                + (if (cfgAt root a).vAlign = .middle then diff / 2 else diff)) })
          geom root n (.alV a rest h) σ2
        else geom root n (.alV a rest h) σ
    | .alH a js w =>
      match js with
      | [] => (none, σ)
      | j :: rest =>
        let el := cfgAt root (a ++ [j])
        if (cfgAt root a).enabled = true ∧ el.ignoreLayout = false
            ∧ (cfgAt root a).hAlign ≠ .left then
          let p := geom root n (.ow (a ++ [j])) σ
          let diff := w - p.1.getD 0
          let σ2 := upd p.2 (a ++ [j]) (fun m =>
            { m with cL := some (m.cL.getD 0
                + (if (cfgAt root a).hAlign = .center then diff / 2 else diff)) })
          geom root n (.alH a rest w) σ2
        else geom root n (.alH a rest w) σ

mutual

/-- `update()` on the node `sh` at address `a`: P1 lines 1305-1328. -/
def updateGo (root : Shape) (F : ℕ) : Shape → Addr → GSt → GSt
  | .node cfg cs, a, σ =>
    if cfg.enabled then
      let σ1 := upd σ a (fun m => { m with nUpd := m.nUpd + 1 })
      if (σ1 a).dirty then
        let σ2 := upd σ1 a (fun m => { m with nBL := m.nBL + 1 })
        let σ3 := (geom root F (.rl a) σ2).2
        let σ4 := updateKids root F cs a 0 σ3
        let σ5 := upd σ4 a (fun m => { m with dirty := false })
        let σ6 := upd σ5 a (fun m => { m with nBR := m.nBR + 1 })
        let σ7 := upd σ6 a (fun m => { m with nOU := m.nOU + 1 })
        upd σ7 a (fun m => { m with nAR := m.nAR + 1 })
      else updateKids root F cs a 0 σ1
    else σ

/-- `this.children.forEach(element => element.update())`. -/
def updateKids (root : Shape) (F : ℕ) : List Shape → Addr → ℕ → GSt → GSt
  | [], _, _, σ => σ
  | c :: rest, a, j, σ => updateKids root F rest a (j + 1) (updateGo root F c (a ++ [j]) σ)

end

/-- Public `update()` on the tree root. -/
def updateAt (root : Shape) (F : ℕ) (σ : GSt) : GSt :=
  updateGo root F root [] σ

/-- The node at relative path `p` exists and it and every node on the
way down is enabled (`update` recursion reaches exactly these). -/
def reachE : Shape → List ℕ → Bool
  | sh, [] => sh.cfg.enabled
  | .node cfg cs, j :: p =>
    cfg.enabled &&
      (match cs.get? j with
       | some c => reachE c p
       | none => false)

/-!
### State-evolution facts for the getter family

Three facts hold of every getter/resolver call and compose along any
call sequence: `layoutReady` only ever moves from `false` to `true`; no
call clears a `dirty` flag; and a call can set a `dirty` flag only on a
node whose parent is a flex container that was not `layoutReady` when
the call started (the placement loop of `resolveLayout`).
-/

/-- `x` may legitimately become dirty: it has a parent whose flex flow
is active and whose layout pass has not completed. -/
def NewlyOK (root : Shape) (σ : GSt) (x : Addr) : Prop :=
  x ≠ [] ∧ (cfgAt root x.dropLast).flexMode ≠ .none
    ∧ (σ x.dropLast).layoutReady = false

/-- The three evolution facts for one call. -/
def GStep (root : Shape) (σ σ2 : GSt) : Prop :=
  (∀ x, (σ x).layoutReady = true → (σ2 x).layoutReady = true)
  ∧ (∀ x, (σ2 x).dirty = false → (σ x).dirty = false)
  ∧ (∀ x, (σ2 x).dirty = true → (σ x).dirty = true ∨ NewlyOK root σ x)

/-- The evolution facts for a bare placement loop over children of `b`
(the loop dirties those children without itself checking
`layoutReady`; its caller `resolveLayout` checked it). -/
def GStepP (root : Shape) (b : Addr) (σ σ2 : GSt) : Prop :=
  (∀ x, (σ x).layoutReady = true → (σ2 x).layoutReady = true)
  ∧ (∀ x, (σ2 x).dirty = false → (σ x).dirty = false)
  ∧ (∀ x, (σ2 x).dirty = true →
      (σ x).dirty = true ∨ NewlyOK root σ x ∨ (x.dropLast = b ∧ x ≠ []))

theorem GStep.grefl (root : Shape) (σ : GSt) : GStep root σ σ :=
  ⟨fun _ h => h, fun _ h => h, fun _ h => Or.inl h⟩

theorem GStep.gtrans {root : Shape} {σ σ2 σ3 : GSt}
    (h1 : GStep root σ σ2) (h2 : GStep root σ2 σ3) : GStep root σ σ3 := by
  obtain ⟨m1, c1, d1⟩ := h1
  obtain ⟨m2, c2, d2⟩ := h2
  refine ⟨fun x hx => m2 x (m1 x hx), fun x hx => c1 x (c2 x hx), ?_⟩
  intro x hx
  rcases d2 x hx with h | ⟨hne, hfl, hlr⟩
  · exact d1 x h
  · refine Or.inr ⟨hne, hfl, ?_⟩
    cases hl : (σ x.dropLast).layoutReady
    · rfl
    · rw [m1 x.dropLast hl] at hlr
      cases hlr

theorem GStep.toP {root : Shape} {σ σ2 : GSt} (b : Addr)
    (h : GStep root σ σ2) : GStepP root b σ σ2 :=
  ⟨h.1, h.2.1, fun x hx => (h.2.2 x hx).imp id Or.inl⟩

theorem GStepP.ptrans {root : Shape} {b : Addr} {σ σ2 σ3 : GSt}
    (h1 : GStepP root b σ σ2) (h2 : GStepP root b σ2 σ3) : GStepP root b σ σ3 := by
  obtain ⟨m1, c1, d1⟩ := h1
  obtain ⟨m2, c2, d2⟩ := h2
  refine ⟨fun x hx => m2 x (m1 x hx), fun x hx => c1 x (c2 x hx), ?_⟩
  intro x hx
  rcases d2 x hx with h | ⟨hne, hfl, hlr⟩ | h
  · exact d1 x h
  · refine Or.inr (Or.inl ⟨hne, hfl, ?_⟩)
    cases hl : (σ x.dropLast).layoutReady
    · rfl
    · rw [m1 x.dropLast hl] at hlr
      cases hlr
  · exact Or.inr (Or.inr h)

/-- A placement loop run under a checked guard (parent flexing, layout
pass open) satisfies the unrestricted evolution facts. -/
theorem GStepP.elim {root : Shape} {b : Addr} {σ σ2 : GSt}
    (h : GStepP root b σ σ2) (hfl : (cfgAt root b).flexMode ≠ .none)
    (hlr : (σ b).layoutReady = false) : GStep root σ σ2 := by
  obtain ⟨m1, c1, d1⟩ := h
  refine ⟨m1, c1, ?_⟩
  intro x hx
  rcases d1 x hx with h | h | ⟨hdr, hne⟩
  · exact Or.inl h
  · exact Or.inr h
  · exact Or.inr ⟨hne, by rwa [hdr], by rwa [hdr]⟩

/-- A point update that moves neither flag. -/
theorem GStep.upd_keep {root : Shape} (σ : GSt) (a : Addr)
    (f : MutState → MutState) (hd : ∀ m, (f m).dirty = m.dirty)
    (hl : ∀ m, (f m).layoutReady = m.layoutReady) :
    GStep root σ (upd σ a f) := by
  refine ⟨fun x hx => ?_, fun x hx => ?_, fun x hx => Or.inl ?_⟩
  · by_cases hxa : x = a
    · subst hxa; rw [upd_same, hl]; exact hx
    · rwa [upd_other _ _ _ _ hxa]
  · by_cases hxa : x = a
    · subst hxa; rw [upd_same, hd] at hx; exact hx
    · rwa [upd_other _ _ _ _ hxa] at hx
  · by_cases hxa : x = a
    · subst hxa; rw [upd_same, hd] at hx; exact hx
    · rwa [upd_other _ _ _ _ hxa] at hx

/-- A point update that only raises `layoutReady`. -/
theorem GStep.upd_lr {root : Shape} (σ : GSt) (a : Addr) :
    GStep root σ (upd σ a (fun m => { m with layoutReady := true })) := by
  refine ⟨fun x hx => ?_, fun x hx => ?_, fun x hx => Or.inl ?_⟩
  · by_cases hxa : x = a
    · subst hxa; rw [upd_same]
    · rwa [upd_other _ _ _ _ hxa]
  · by_cases hxa : x = a
    · subst hxa; rw [upd_same] at hx; exact hx
    · rwa [upd_other _ _ _ _ hxa] at hx
  · by_cases hxa : x = a
    · subst hxa; rw [upd_same] at hx; exact hx
    · rwa [upd_other _ _ _ _ hxa] at hx

theorem dropLast_child (b : Addr) (j : ℕ) : (b ++ [j]).dropLast = b := by
  simp

/-- The placement write that marks a child dirty. -/
theorem GStepP.upd_dirty {root : Shape} (σ : GSt) (b : Addr) (j : ℕ)
    (f : MutState → MutState) (hl : ∀ m, (f m).layoutReady = m.layoutReady)
    (hd : ∀ m, (f m).dirty = true) :
    GStepP root b σ (upd σ (b ++ [j]) f) := by
  refine ⟨fun x hx => ?_, fun x hx => ?_, fun x hx => ?_⟩
  · by_cases hxa : x = b ++ [j]
    · subst hxa; rw [upd_same, hl]; exact hx
    · rwa [upd_other _ _ _ _ hxa]
  · by_cases hxa : x = b ++ [j]
    · subst hxa; rw [upd_same, hd] at hx; cases hx
    · rwa [upd_other _ _ _ _ hxa] at hx
  · by_cases hxa : x = b ++ [j]
    · subst hxa
      exact Or.inr (Or.inr ⟨dropLast_child b j, by simp⟩)
    · rw [upd_other _ _ _ _ hxa] at hx
      exact Or.inl hx

theorem GStepP.prefl (root : Shape) (b : Addr) (σ : GSt) : GStepP root b σ σ :=
  (GStep.grefl root σ).toP b

/-- Peel a flag-preserving point update off the right of a chain. -/
theorem GStep.snoc {root : Shape} {σ X : GSt} (a : Addr) (f : MutState → MutState)
    (hd : ∀ m, (f m).dirty = m.dirty) (hl : ∀ m, (f m).layoutReady = m.layoutReady)
    (h : GStep root σ X) : GStep root σ (upd X a f) :=
  h.gtrans (GStep.upd_keep X a f hd hl)

/-- The evolution facts of the getter/resolver family: each call keeps
`layoutReady` monotone, clears no `dirty` flag, and sets `dirty` only on
children of a flexing node whose layout pass was open (the placement
loops; for a `resolveLayout` call that condition was its own guard). -/
theorem geom_ok (root : Shape) :
    ∀ (n : ℕ) (c : GCall) (σ : GSt),
    (match c with
     | .plH b _ _ _ _ _ => GStepP root b σ (geom root n c σ).2
     | .plV b _ _ _ _ _ => GStepP root b σ (geom root n c σ).2
     | _ => GStep root σ (geom root n c σ).2) := by
  intro n
  induction n with
  | zero =>
    intro c σ
    cases c <;> first
      | exact GStepP.prefl root _ σ
      | exact GStep.grefl root σ
  | succ n IH =>
    intro c σ
    cases c with
    | iw a =>
      dsimp only [geom]
      exact IH (.cw a) σ
    | ow a =>
      dsimp only [geom]
      exact IH (.cw a) σ
    | ih a =>
      dsimp only [geom]
      exact IH (.ch a) σ
    | oh a =>
      dsimp only [geom]
      exact IH (.ch a) σ
    | cwk a js =>
      dsimp only [geom]
      cases js with
      | nil => exact GStep.grefl root σ
      | cons j rest =>
        dsimp only
        refine GStep.gtrans ?_ (IH (.cwk a rest) _)
        split
        · exact GStep.grefl root σ
        · exact IH (.ow (a ++ [j])) σ
    | chk a js =>
      dsimp only [geom]
      cases js with
      | nil => exact GStep.grefl root σ
      | cons j rest =>
        dsimp only
        refine GStep.gtrans ?_ (IH (.chk a rest) _)
        split
        · exact GStep.grefl root σ
        · exact IH (.oh (a ++ [j])) σ
    | cmw a js =>
      dsimp only [geom]
      cases js with
      | nil => exact GStep.grefl root σ
      | cons j rest =>
        dsimp only
        refine GStep.gtrans ?_ (IH (.cmw a rest) _)
        split
        · exact GStep.grefl root σ
        · exact IH (.ow (a ++ [j])) σ
    | cmh a js =>
      dsimp only [geom]
      cases js with
      | nil => exact GStep.grefl root σ
      | cons j rest =>
        dsimp only
        refine GStep.gtrans ?_ (IH (.cmh a rest) _)
        split
        · exact GStep.grefl root σ
        · exact IH (.oh (a ++ [j])) σ
    | cap a c =>
      dsimp only [geom]
      cases c with
      | parentInnerWidthGated r =>
        dsimp only
        by_cases ha : a = []
        · rw [if_pos ha]; exact GStep.grefl root σ
        · rw [if_neg ha]
          by_cases hr : widthReadyAt root a.dropLast σ = true
          · rw [if_pos hr]; exact IH (.iw a.dropLast) σ
          · rw [if_neg hr]; exact GStep.grefl root σ
      | parentHeightRaw r =>
        dsimp only
        by_cases ha : a = []
        · rw [if_pos ha]; exact GStep.grefl root σ
        · rw [if_neg ha]; exact GStep.grefl root σ
      | parentComputedWidthRaw r =>
        dsimp only
        by_cases ha : a = []
        · rw [if_pos ha]; exact GStep.grefl root σ
        · rw [if_neg ha]; exact IH (.cw a.dropLast) σ
      | parentComputedHeightRaw r =>
        dsimp only
        by_cases ha : a = []
        · rw [if_pos ha]; exact GStep.grefl root σ
        · rw [if_neg ha]; exact IH (.ch a.dropLast) σ
    | cw a =>
      dsimp only [geom]
      cases hc : (σ a).cW with
      | some v => exact GStep.grefl root σ
      | none =>
        dsimp only
        refine GStep.snoc _ _ (fun m => rfl) (fun m => rfl) ?_
        have htail : ∀ p1 : Option ℚ × GSt, GStep root σ p1.2 →
            GStep root σ
              (if (cfgAt root a).xFill ≠ 0 ∧ p1.1 ≠ none then
                ((some (p1.1.getD 0
                    + (if a = [] then ((some 0 : Option ℚ), p1.2)
                       else geom root n (.cw a.dropLast) p1.2).1.getD 0
                      * (cfgAt root a).xFill) : Option ℚ),
                 (if a = [] then ((some 0 : Option ℚ), p1.2)
                  else geom root n (.cw a.dropLast) p1.2).2)
               else p1).2 := by
          intro p1 h1
          split
          · dsimp only
            split
            · exact h1
            · exact GStep.gtrans h1 (IH (.cw a.dropLast) p1.2)
          · exact h1
        cases hw : (cfgAt root a).wIn with
        | cap c => exact htail _ (IH (.cap a c) σ)
        | num q => exact htail (some q, σ) (GStep.grefl root σ)
        | unset =>
          cases hm : (cfgAt root a).flexMode with
          | none =>
            dsimp only
            split
            · refine htail _ ?_
              exact GStep.grefl root σ
            · refine htail _ ?_
              exact GStep.grefl root σ
          | horizontal =>
            dsimp only
            refine htail ((some ((geom root n (.cwk a (List.range (kidsAt root a))) σ).1.getD 0
                + (cfgAt root a).padLeft + (cfgAt root a).padRight) : Option ℚ),
              (geom root n (.cwk a (List.range (kidsAt root a))) σ).2) ?_
            exact IH (.cwk a (List.range (kidsAt root a))) σ
          | vertical =>
            dsimp only
            refine htail ((some ((geom root n (.cmw a (List.range (kidsAt root a)))
                  (geom root n (.rl a) σ).2).1.getD 0) : Option ℚ),
              (geom root n (.cmw a (List.range (kidsAt root a)))
                (geom root n (.rl a) σ).2).2) ?_
            exact GStep.gtrans (IH (.rl a) σ)
              (IH (.cmw a (List.range (kidsAt root a))) _)
    | ch a =>
      dsimp only [geom]
      cases hc : (σ a).cH with
      | some v => exact GStep.grefl root σ
      | none =>
        dsimp only
        refine GStep.snoc _ _ (fun m => rfl) (fun m => rfl) ?_
        have htail : ∀ p1 : Option ℚ × GSt, GStep root σ p1.2 →
            GStep root σ
              (if (cfgAt root a).yFill ≠ 0 ∧ p1.1 ≠ none then
                ((some (p1.1.getD 0
                    + (if a = [] then ((some 0 : Option ℚ), p1.2)
                       else geom root n (.ch a.dropLast) p1.2).1.getD 0
                      * (cfgAt root a).yFill) : Option ℚ),
                 (if a = [] then ((some 0 : Option ℚ), p1.2)
                  else geom root n (.ch a.dropLast) p1.2).2)
               else p1).2 := by
          intro p1 h1
          split
          · dsimp only
            split
            · exact h1
            · exact GStep.gtrans h1 (IH (.ch a.dropLast) p1.2)
          · exact h1
        cases hw : (cfgAt root a).hIn with
        | cap c => exact htail _ (IH (.cap a c) σ)
        | num q => exact htail (some q, σ) (GStep.grefl root σ)
        | unset =>
          cases hm : (cfgAt root a).flexMode with
          | none =>
            dsimp only
            split
            · refine htail _ ?_
              exact GStep.grefl root σ
            · refine htail _ ?_
              exact GStep.grefl root σ
          | horizontal =>
            dsimp only
            refine htail ((some ((geom root n (.cmh a (List.range (kidsAt root a)))
                  (geom root n (.rl a) σ).2).1.getD 0) : Option ℚ),
              (geom root n (.cmh a (List.range (kidsAt root a)))
                (geom root n (.rl a) σ).2).2) ?_
            exact GStep.gtrans (IH (.rl a) σ)
              (IH (.cmh a (List.range (kidsAt root a))) _)
          | vertical =>
            dsimp only
            refine htail ((some ((geom root n (.chk a (List.range (kidsAt root a))) σ).1.getD 0
                + (cfgAt root a).padTop + (cfgAt root a).padBottom) : Option ℚ),
              (geom root n (.chk a (List.range (kidsAt root a))) σ).2) ?_
            exact IH (.chk a (List.range (kidsAt root a))) σ
    | rl a =>
      dsimp only [geom]
      split
      · exact GStep.upd_lr σ a
      · next hguard =>
        have hfl : (cfgAt root a).flexMode ≠ .none := fun h => hguard (Or.inr h)
        have hlr : (σ a).layoutReady = false := by
          cases h : (σ a).layoutReady
          · rfl
          · exact absurd (Or.inl h) hguard
        split
        · -- vertical container
          refine GStepP.elim ?_ hfl hlr
          refine GStepP.ptrans ?_ (GStep.toP a (IH (.alH a _ _) _))
          refine GStepP.ptrans ?_ (GStep.toP a (IH (.iw a) _))
          refine GStepP.ptrans ?_ (GStep.toP a (GStep.upd_lr _ a))
          refine GStepP.ptrans ?_ (IH (.plV a _ _ _ _ _) _)
          refine GStepP.ptrans ?_ (GStep.toP a (IH (.chk a _) _))
          exact GStep.toP a (IH (.ih a) σ)
        · -- horizontal container
          refine GStepP.elim ?_ hfl hlr
          refine GStepP.ptrans ?_ (GStep.toP a (IH (.alV a _ _) _))
          refine GStepP.ptrans ?_ (GStep.toP a (IH (.ih a) _))
          refine GStepP.ptrans ?_ (GStep.toP a (GStep.upd_lr _ a))
          refine GStepP.ptrans ?_ (IH (.plH a _ _ _ _ _) _)
          refine GStepP.ptrans ?_ (GStep.toP a (IH (.cwk a _) _))
          exact GStep.toP a (IH (.iw a) σ)
    | plH a js gf gc gp xo =>
      dsimp only [geom]
      cases js with
      | nil => exact GStepP.prefl root a σ
      | cons j rest =>
        dsimp only
        split
        · exact IH (.plH a rest gf gc gp xo) σ
        · split
          · refine GStepP.ptrans ?_ (IH (.plH a rest gf _ _ _) _)
            refine GStepP.ptrans ?_ (GStep.toP a (IH (.ow (a ++ [j])) _))
            refine GStepP.ptrans ?_ (GStepP.upd_dirty _ a j _ ?_ ?_)
            · refine GStep.toP a (GStep.upd_keep σ _ _ ?_ ?_)
              · intro m; rfl
              · intro m; rfl
            · intro m; rfl
            · intro m; rfl
          · refine GStepP.ptrans ?_ (IH (.plH a rest gf _ _ _) _)
            refine GStepP.ptrans ?_ (GStep.toP a (IH (.ow (a ++ [j])) _))
            refine GStepP.upd_dirty _ a j _ ?_ ?_
            · intro m; rfl
            · intro m; rfl
    | plV a js gf gc gp yo =>
      dsimp only [geom]
      cases js with
      | nil => exact GStepP.prefl root a σ
      | cons j rest =>
        dsimp only
        split
        · exact IH (.plV a rest gf gc gp yo) σ
        · split
          · refine GStepP.ptrans ?_ (IH (.plV a rest gf _ _ _) _)
            refine GStepP.ptrans ?_ (GStep.toP a (IH (.oh (a ++ [j])) _))
            refine GStepP.ptrans ?_ (GStepP.upd_dirty _ a j _ ?_ ?_)
            · refine GStep.toP a (GStep.upd_keep σ _ _ ?_ ?_)
              · intro m; rfl
              · intro m; rfl
            · intro m; rfl
            · intro m; rfl
          · refine GStepP.ptrans ?_ (IH (.plV a rest gf _ _ _) _)
            refine GStepP.ptrans ?_ (GStep.toP a (IH (.oh (a ++ [j])) _))
            refine GStepP.upd_dirty _ a j _ ?_ ?_
            · intro m; rfl
            · intro m; rfl
    | alV a js h =>
      dsimp only [geom]
      cases js with
      | nil => exact GStep.grefl root σ
      | cons j rest =>
        dsimp only
        split
        · refine GStep.gtrans ?_ (IH (.alV a rest h) _)
          refine GStep.gtrans ?_ (GStep.upd_keep _ _ _ ?_ ?_)
          · exact IH (.oh (a ++ [j])) σ
          · intro m; rfl
          · intro m; rfl
        · exact IH (.alV a rest h) σ
    | alH a js w =>
      dsimp only [geom]
      cases js with
      | nil => exact GStep.grefl root σ
      | cons j rest =>
        dsimp only
        split
        · refine GStep.gtrans ?_ (IH (.alH a rest w) _)
          refine GStep.gtrans ?_ (GStep.upd_keep _ _ _ ?_ ?_)
          · exact IH (.ow (a ++ [j])) σ
          · intro m; rfl
          · intro m; rfl
        · exact IH (.alH a rest w) σ

/-- `resolveLayout` always ends with `this._layoutReady = true` (all
three paths of the source set it), given one unit of fuel. -/
theorem rl_sets_lr (root : Shape) (n : ℕ) (a : Addr) (σ : GSt) :
    (((geom root (n + 1) (.rl a) σ).2) a).layoutReady = true := by
  dsimp only [geom]
  split
  · dsimp only
    rw [upd_same]
  · split
    · -- vertical container
      apply (geom_ok root n (.alH _ _ _) _).1
      apply (geom_ok root n (.iw _) _).1
      rw [upd_same]
    · -- horizontal container
      apply (geom_ok root n (.alV _ _ _) _).1
      apply (geom_ok root n (.ih _) _).1
      rw [upd_same]

theorem atAddr_nil (t : Shape) : t.atAddr [] = some t := by
  rcases t with ⟨cfg, cs⟩
  rfl

theorem atAddr_append (root : Shape) : ∀ (a : Addr) (cfg : Cfg) (cs : List Shape)
    (j : ℕ) (c : Shape), root.atAddr a = some (.node cfg cs) → cs.get? j = some c →
    root.atAddr (a ++ [j]) = some c := by
  intro a
  induction a generalizing root with
  | nil =>
    intro cfg cs j c hv hc
    have hr : root = Shape.node cfg cs := by simpa [Shape.atAddr] using hv
    subst hr
    simp only [List.nil_append]
    simp only [Shape.atAddr]
    rw [List.get?_eq_getElem?] at hc
    simp [hc]
  | cons i t ihp =>
    intro cfg cs j c hv hc
    rcases root with ⟨rc, rcs⟩
    unfold Shape.atAddr at hv
    simp only [List.cons_append]
    unfold Shape.atAddr
    cases hg : rcs.get? i with
    | none => rw [hg] at hv; cases hv
    | some r =>
      rw [hg] at hv
      exact ihp r cfg cs j c hv hc

theorem reachE_enabled {cfg : Cfg} {cs : List Shape} {p : List ℕ}
    (hp : reachE (.node cfg cs) p = true) : cfg.enabled = true := by
  cases p with
  | nil => simpa [reachE, Shape.cfg] using hp
  | cons j q =>
    unfold reachE at hp
    exact (Bool.and_eq_true_iff.mp hp).1

theorem reachE_child {cfg : Cfg} {cs : List Shape} {j : ℕ} {q : List ℕ}
    (hp : reachE (.node cfg cs) (j :: q) = true) :
    ∃ c, cs.get? j = some c ∧ reachE c q = true := by
  unfold reachE at hp
  have h2 := (Bool.and_eq_true_iff.mp hp).2
  cases hg : cs.get? j with
  | none => rw [hg] at h2; cases h2
  | some c =>
    rw [hg] at h2
    exact ⟨c, rfl, h2⟩

theorem reachE_append_last : ∀ (q : List ℕ) (l : ℕ) (c : Shape),
    reachE c (q ++ [l]) = true → reachE c q = true := by
  intro q
  induction q with
  | nil =>
    intro l c h
    rcases c with ⟨cfg, cs⟩
    simp only [List.nil_append] at h
    have := reachE_enabled h
    simpa [reachE, Shape.cfg] using this
  | cons j q2 ihq =>
    intro l c h
    rcases c with ⟨cfg, cs⟩
    simp only [List.cons_append] at h
    obtain ⟨c2, hg, hr⟩ := reachE_child h
    unfold reachE
    rw [hg]
    simp [reachE_enabled h, ihq l c2 hr]

/-- The class invariant justified by the mutators: a clean node's layout
pass has completed (`setDirty` clears both, `update` clears `dirty`
right after `resolveLayout` sets `layoutReady`). -/
def Inv (σ : GSt) : Prop := ∀ x, (σ x).dirty = false → (σ x).layoutReady = true

/-- The node's own slot cannot be re-dirtied: it is the root, or its
parent's flex flow is off, or the parent's layout pass has closed. -/
def StableAt (root : Shape) (a : Addr) (σ : GSt) : Prop :=
  a = [] ∨ (cfgAt root a.dropLast).flexMode = .none
    ∨ (σ a.dropLast).layoutReady = true

theorem GStep.inv {root : Shape} {σ σ2 : GSt} (h : GStep root σ σ2) :
    Inv σ → Inv σ2 := fun hI x hx => h.1 x (hI x (h.2.1 x hx))

theorem StableAt.mono {root : Shape} {a : Addr} {σ σ2 : GSt}
    (h : StableAt root a σ)
    (hm : ∀ x, (σ x).layoutReady = true → (σ2 x).layoutReady = true) :
    StableAt root a σ2 :=
  h.imp id (Or.imp id (hm _))

theorem no_new_dirty {root : Shape} {σ σ2 : GSt}
    (_hmono : ∀ x, (σ x).layoutReady = true → (σ2 x).layoutReady = true)
    (hdok : ∀ x, (σ2 x).dirty = true → (σ x).dirty = true ∨ NewlyOK root σ x)
    (x : Addr) (hst : StableAt root x σ) (hd : (σ x).dirty = false) :
    (σ2 x).dirty = false := by
  cases h : (σ2 x).dirty
  · rfl
  · rcases hdok x h with h1 | ⟨hne, hfl, hlr⟩
    · rw [h1] at hd; cases hd
    · rcases hst with h2 | h2 | h2
      · exact absurd h2 hne
      · exact absurd h2 hfl
      · rw [h2] at hlr; cases hlr

theorem dirtyOK_comp {root : Shape} {σ σ2 σ3 : GSt}
    (m1 : ∀ x, (σ x).layoutReady = true → (σ2 x).layoutReady = true)
    (d1 : ∀ x, (σ2 x).dirty = true → (σ x).dirty = true ∨ NewlyOK root σ x)
    (d2 : ∀ x, (σ3 x).dirty = true → (σ2 x).dirty = true ∨ NewlyOK root σ2 x) :
    ∀ x, (σ3 x).dirty = true → (σ x).dirty = true ∨ NewlyOK root σ x := by
  intro x hx
  rcases d2 x hx with h | ⟨hne, hfl, hlr⟩
  · exact d1 x h
  · refine Or.inr ⟨hne, hfl, ?_⟩
    cases hl : (σ x.dropLast).layoutReady
    · rfl
    · rw [m1 x.dropLast hl] at hlr
      cases hlr

theorem upd_lr_keep (σ : GSt) (a : Addr) (f : MutState → MutState)
    (hl : ∀ m, (f m).layoutReady = m.layoutReady) :
    ∀ x, (σ x).layoutReady = true → ((upd σ a f) x).layoutReady = true := by
  intro x hx
  by_cases hxa : x = a
  · subst hxa; rw [upd_same, hl]; exact hx
  · rwa [upd_other _ _ _ _ hxa]

theorem upd_dirty_eq (σ : GSt) (a : Addr) (f : MutState → MutState)
    (hd : ∀ m, (f m).dirty = m.dirty) :
    ∀ x, ((upd σ a f) x).dirty = (σ x).dirty := by
  intro x
  by_cases hxa : x = a
  · subst hxa; rw [upd_same, hd]
  · rw [upd_other _ _ _ _ hxa]

theorem Inv_upd_keep {σ : GSt} (hI : Inv σ) (a : Addr) (f : MutState → MutState)
    (hd : ∀ m, (f m).dirty = m.dirty) (hl : ∀ m, (f m).layoutReady = m.layoutReady) :
    Inv (upd σ a f) := by
  intro x hx
  by_cases hxa : x = a
  · subst hxa
    rw [upd_same, hl]
    rw [upd_same, hd] at hx
    exact hI x hx
  · rw [upd_other _ _ _ _ hxa] at hx ⊢
    exact hI x hx

theorem GStep.bump_nUpd (root : Shape) (σ : GSt) (a : Addr) :
    GStep root σ (upd σ a (fun m => { m with nUpd := m.nUpd + 1 })) := by
  refine GStep.upd_keep σ a _ ?_ ?_ <;> (intro m; rfl)

theorem GStep.bump_nBL (root : Shape) (σ : GSt) (a : Addr) :
    GStep root σ (upd σ a (fun m => { m with nBL := m.nBL + 1 })) := by
  refine GStep.upd_keep σ a _ ?_ ?_ <;> (intro m; rfl)

theorem append_cons_ne (a : Addr) (j : ℕ) (q : List ℕ) : a ++ [j] ++ q ≠ a := by
  intro h
  have h2 := congrArg List.length h
  simp only [List.length_append, List.length_cons, List.length_nil] at h2
  omega

/-- Pointwise value of the four writes closing `update`'s dirty branch. -/
theorem trail_eval (σ : GSt) (a x : Addr) :
    ((upd (upd (upd (upd σ a (fun m => { m with dirty := false })) a
        (fun m => { m with nBR := m.nBR + 1 })) a
        (fun m => { m with nOU := m.nOU + 1 })) a
        (fun m => { m with nAR := m.nAR + 1 })) x)
    = if x = a then
        { σ a with
            dirty := false,
            nBR := (σ a).nBR + 1,
            nOU := (σ a).nOU + 1,
            nAR := (σ a).nAR + 1 }
      else σ x := by
  by_cases hxa : x = a
  · subst hxa
    rw [if_pos rfl, upd_same, upd_same, upd_same, upd_same]
  · rw [if_neg hxa, upd_other _ _ _ _ hxa, upd_other _ _ _ _ hxa,
      upd_other _ _ _ _ hxa, upd_other _ _ _ _ hxa]

/-- Everything claims C9/C10 need of one `update()` call on the node
`sh` at `a`: `layoutReady` stays monotone; a node can end dirty only if
it was dirty or sits under a flexing parent whose pass was open; the
class invariant `Inv` is preserved; and every node of the subtree
reached through enabled nodes ends clean. -/
def UGp (root : Shape) (F : ℕ) (sh : Shape) (a : Addr) (σ : GSt) : Prop :=
  (∀ x, (σ x).layoutReady = true → ((updateGo root F sh a σ) x).layoutReady = true)
  ∧ (∀ x, ((updateGo root F sh a σ) x).dirty = true →
      (σ x).dirty = true ∨ NewlyOK root σ x)
  ∧ (1 ≤ F → Inv σ → Inv (updateGo root F sh a σ))
  ∧ (root.atAddr a = some sh → 1 ≤ F → Inv σ → StableAt root a σ →
      ∀ p, reachE sh p = true → ((updateGo root F sh a σ) (a ++ p)).dirty = false)

/-- The corresponding facts for the children loop from slot `j0`. -/
def UKp (root : Shape) (F : ℕ) (cs : List Shape) (a : Addr) (j0 : ℕ) (σ : GSt) : Prop :=
  (∀ x, (σ x).layoutReady = true → ((updateKids root F cs a j0 σ) x).layoutReady = true)
  ∧ (∀ x, ((updateKids root F cs a j0 σ) x).dirty = true →
      (σ x).dirty = true ∨ NewlyOK root σ x)
  ∧ (1 ≤ F → Inv σ → Inv (updateKids root F cs a j0 σ))
  ∧ ((∀ i c, cs.get? i = some c → root.atAddr (a ++ [j0 + i]) = some c) →
      1 ≤ F → Inv σ →
      ((cfgAt root a).flexMode = .none ∨ (σ a).layoutReady = true) →
      ∀ i c p, cs.get? i = some c → reachE c p = true →
        ((updateKids root F cs a j0 σ) (a ++ [j0 + i] ++ p)).dirty = false)

theorem update_spec_all : ∀ N : ℕ,
    (∀ root F (sh : Shape) (a : Addr) (σ : GSt), sizeOf sh < N → UGp root F sh a σ)
    ∧ (∀ root F (cs : List Shape) (a : Addr) (j0 : ℕ) (σ : GSt), sizeOf cs < N →
        UKp root F cs a j0 σ) := by
  intro N
  induction N using Nat.strong_induction_on with
  | _ N IH =>
  have hK : ∀ root F (cs : List Shape) (a : Addr) (j0 : ℕ) (σ : GSt), sizeOf cs < N →
      UKp root F cs a j0 σ := by
    intro root F cs
    induction cs with
    | nil =>
      intro a j0 σ _
      unfold UKp updateKids
      refine ⟨fun x h => h, fun x h => Or.inl h, fun _ h => h, ?_⟩
      intro _ _ _ _ i c p hc _
      simp at hc
    | cons c rest ihrest =>
      intro a j0 σ hsz
      have hszc : sizeOf c < sizeOf (c :: rest) := by
        simp only [List.cons.sizeOf_spec]
        omega
      have hszrest : sizeOf rest < N := by
        have : sizeOf rest < sizeOf (c :: rest) := by
          simp only [List.cons.sizeOf_spec]
          omega
        omega
      have hUG : ∀ σ2, UGp root F c (a ++ [j0]) σ2 := fun σ2 =>
        (IH (sizeOf (c :: rest)) hsz).1 root F c (a ++ [j0]) σ2 hszc
      show UKp root F (c :: rest) a j0 σ
      unfold UKp updateKids
      obtain ⟨g1, g2, g3, g4⟩ := hUG σ
      obtain ⟨r1, r2, r3, r4⟩ :=
        ihrest a (j0 + 1) (updateGo root F c (a ++ [j0]) σ) hszrest
      refine ⟨fun x h => r1 x (g1 x h), dirtyOK_comp g1 g2 r2,
        fun hF hI => r3 hF (g3 hF hI), ?_⟩
      intro hvk hF hI hHS i c2 p hc2 hp
      cases i with
      | zero =>
        rw [List.get?_cons_zero] at hc2
        injection hc2 with hcc
        subst hcc
        simp only [Nat.add_zero]
        have hv0 : root.atAddr (a ++ [j0]) = some c := by
          have := hvk 0 c (by rw [List.get?_cons_zero])
          simpa using this
        have hstc : StableAt root (a ++ [j0]) σ := by
          rcases hHS with h | h
          · exact Or.inr (Or.inl (by rwa [dropLast_child]))
          · exact Or.inr (Or.inr (by rwa [dropLast_child]))
        have hclean := g4 hv0 hF hI hstc p hp
        have hIc : Inv (updateGo root F c (a ++ [j0]) σ) := g3 hF hI
        refine no_new_dirty r1 r2 (a ++ [j0] ++ p) ?_ hclean
        rcases List.eq_nil_or_concat p with hp0 | ⟨q, l, hq⟩
        · subst hp0
          simp only [List.append_nil]
          rcases hHS with h | h
          · exact Or.inr (Or.inl (by rwa [dropLast_child]))
          · exact Or.inr (Or.inr (by rw [dropLast_child]; exact g1 a h))
        · rw [List.concat_eq_append] at hq
          subst hq
          have hreach : reachE c q = true := reachE_append_last q l c hp
          have hdq := g4 hv0 hF hI hstc q hreach
          right
          right
          rw [show a ++ [j0] ++ (q ++ [l]) = (a ++ [j0] ++ q) ++ [l] by simp]
          rw [dropLast_child]
          exact hIc _ hdq
      | succ i =>
        have hvk2 : ∀ i2 c3, rest.get? i2 = some c3 →
            root.atAddr (a ++ [j0 + 1 + i2]) = some c3 := by
          intro i2 c3 hg
          have := hvk (i2 + 1) c3 (by simpa using hg)
          rwa [show j0 + (i2 + 1) = j0 + 1 + i2 by omega] at this
        have hHS2 : (cfgAt root a).flexMode = .none ∨
            ((updateGo root F c (a ++ [j0]) σ) a).layoutReady = true := by
          rcases hHS with h | h
          · exact Or.inl h
          · exact Or.inr (g1 a h)
        have h4 := r4 hvk2 hF (g3 hF hI) hHS2 i c2 p (by simpa using hc2) hp
        rwa [show j0 + 1 + i = j0 + (i + 1) by omega] at h4
  refine ⟨?_, hK⟩
  intro root F sh a σ hszsh
  rcases sh with ⟨cfg, cs⟩
  have hKall : ∀ (j0 : ℕ) (σ2 : GSt), UKp root F cs a j0 σ2 := by
    intro j0 σ2
    apply hK root F cs a j0 σ2
    have : sizeOf cs < sizeOf (Shape.node cfg cs) := by
      simp only [Shape.node.sizeOf_spec]
      omega
    omega
  show UGp root F (.node cfg cs) a σ
  unfold UGp updateGo
  by_cases he : cfg.enabled = true
  case neg =>
    rw [if_neg he]
    refine ⟨fun x h => h, fun x h => Or.inl h, fun _ h => h, ?_⟩
    intro _ _ _ _ p hp
    exact absurd (reachE_enabled hp) he
  case pos =>
    rw [if_pos he]
    dsimp only
    set σ1 := upd σ a (fun m => { m with nUpd := m.nUpd + 1 }) with hs1
    have hcond : (σ1 a).dirty = (σ a).dirty := by
      rw [hs1, upd_same]
    rw [hcond]
    have gA1 : GStep root σ σ1 := GStep.bump_nUpd root σ a
    by_cases hd : (σ a).dirty = true
    case pos =>
      rw [if_pos hd]
      set σ2 := upd σ1 a (fun m => { m with nBL := m.nBL + 1 }) with hs2
      set σ3 := (geom root F (.rl a) σ2).2 with hs3
      set σ4 := updateKids root F cs a 0 σ3 with hs4
      have gA : GStep root σ σ2 := gA1.gtrans (GStep.bump_nBL root σ1 a)
      have gR : GStep root σ2 σ3 := geom_ok root F (.rl a) σ2
      obtain ⟨k1, k2, k3, k4⟩ := hKall 0 σ3
      have hlr3 : 1 ≤ F → (σ3 a).layoutReady = true := by
        intro hF
        obtain ⟨m, rfl⟩ : ∃ m, F = m + 1 := ⟨F - 1, by omega⟩
        rw [hs3]
        exact rl_sets_lr root m a σ2
      refine ⟨?_, ?_, ?_, ?_⟩
      · intro x hx
        have m4 : (σ4 x).layoutReady = true := k1 x (gR.1 x (gA.1 x hx))
        rw [trail_eval]
        by_cases hxa : x = a
        · rw [if_pos hxa, ← hxa]
          exact m4
        · rw [if_neg hxa]
          exact m4
      · intro x hx
        rw [trail_eval] at hx
        have hx4 : (σ4 x).dirty = true := by
          by_cases hxa : x = a
          · rw [if_pos hxa] at hx
            cases hx
          · rwa [if_neg hxa] at hx
        exact dirtyOK_comp gA.1 gA.2.2 (dirtyOK_comp gR.1 gR.2.2 k2) x hx4
      · intro hF hI
        have hI4 : Inv σ4 := k3 hF (gR.inv (gA.inv hI))
        have hlr4 : (σ4 a).layoutReady = true := k1 a (hlr3 hF)
        intro x hx
        rw [trail_eval] at hx ⊢
        by_cases hxa : x = a
        · rw [if_pos hxa]
          rw [if_pos hxa] at hx
          exact hlr4
        · rw [if_neg hxa] at hx ⊢
          exact hI4 x hx
      · intro hv hF hI hst p hp
        cases p with
        | nil =>
          simp only [List.append_nil]
          rw [trail_eval, if_pos rfl]
        | cons j q =>
          obtain ⟨c, hcj, hq⟩ := reachE_child hp
          have hvk : ∀ i c2, cs.get? i = some c2 →
              root.atAddr (a ++ [0 + i]) = some c2 := by
            intro i c2 hg
            have := atAddr_append root a cfg cs i c2 hv hg
            simpa using this
          have h4 := k4 hvk hF (gR.inv (gA.inv hI)) (Or.inr (hlr3 hF)) j c q hcj hq
          simp only [Nat.zero_add] at h4
          rw [show a ++ (j :: q) = a ++ [j] ++ q from by simp]
          rw [trail_eval, if_neg (append_cons_ne a j q)]
          exact h4
    case neg =>
      rw [if_neg hd]
      obtain ⟨k1, k2, k3, k4⟩ := hKall 0 σ1
      refine ⟨fun x hx => k1 x (gA1.1 x hx), dirtyOK_comp gA1.1 gA1.2.2 k2,
        fun hF hI => k3 hF (gA1.inv hI), ?_⟩
      intro hv hF hI hst p hp
      have hd' : (σ a).dirty = false := by
        cases h : (σ a).dirty
        · rfl
        · exact absurd h hd
      cases p with
      | nil =>
        simp only [List.append_nil]
        have hd1 : (σ1 a).dirty = false := by
          rw [hs1, upd_same]
          exact hd'
        exact no_new_dirty k1 k2 a (hst.mono gA1.1) hd1
      | cons j q =>
        obtain ⟨c, hcj, hq⟩ := reachE_child hp
        have hvk : ∀ i c2, cs.get? i = some c2 →
            root.atAddr (a ++ [0 + i]) = some c2 := by
          intro i c2 hg
          have := atAddr_append root a cfg cs i c2 hv hg
          simpa using this
        have hHS : (cfgAt root a).flexMode = .none ∨ (σ1 a).layoutReady = true :=
          Or.inr (gA1.1 a (hI a hd'))
        have h4 := k4 hvk hF (gA1.inv hI) hHS j c q hcj hq
        simp only [Nat.zero_add] at h4
        rw [show a ++ (j :: q) = a ++ [j] ++ q from by simp]
        exact h4

/-- All fields except the per-tick `nUpd` counter are untouched. -/
def quiet (m m2 : MutState) : Prop :=
  m2.cW = m.cW ∧ m2.cH = m.cH ∧ m2.cT = m.cT ∧ m2.cL = m.cL
  ∧ m2.dirty = m.dirty ∧ m2.layoutReady = m.layoutReady
  ∧ m2.nBL = m.nBL ∧ m2.nBR = m.nBR ∧ m2.nOU = m.nOU ∧ m2.nAR = m.nAR

theorem quiet.qrefl (m : MutState) : quiet m m :=
  ⟨rfl, rfl, rfl, rfl, rfl, rfl, rfl, rfl, rfl, rfl⟩

theorem quiet.qtrans {m1 m2 m3 : MutState} (h1 : quiet m1 m2) (h2 : quiet m2 m3) :
    quiet m1 m3 := by
  obtain ⟨a1, a2, a3, a4, a5, a6, a7, a8, a9, a10⟩ := h1
  obtain ⟨b1, b2, b3, b4, b5, b6, b7, b8, b9, b10⟩ := h2
  exact ⟨b1.trans a1, b2.trans a2, b3.trans a3, b4.trans a4, b5.trans a5,
    b6.trans a6, b7.trans a7, b8.trans a8, b9.trans a9, b10.trans a10⟩

theorem quiet_bump_nUpd (σ : GSt) (a x : Addr) :
    quiet (σ x) ((upd σ a (fun m => { m with nUpd := m.nUpd + 1 })) x) := by
  by_cases hxa : x = a
  · subst hxa
    rw [upd_same]
    exact ⟨rfl, rfl, rfl, rfl, rfl, rfl, rfl, rfl, rfl, rfl⟩
  · rw [upd_other _ _ _ _ hxa]
    exact quiet.qrefl _

theorem reachE_cons_intro {cfg : Cfg} {cs : List Shape} {j : ℕ} {p : List ℕ}
    {c : Shape} (he : cfg.enabled = true) (hg : cs.get? j = some c)
    (hr : reachE c p = true) : reachE (.node cfg cs) (j :: p) = true := by
  unfold reachE
  rw [hg]
  simp [he, hr]

/-- A traversal over a tree whose enabled-reachable nodes are all clean
touches nothing but the `nUpd` counters: no geometry write, no dirty or
`layoutReady` change, none of the redraw trio. -/
theorem update_quiet_all : ∀ N : ℕ,
    (∀ root F (sh : Shape) (a : Addr) (σ : GSt), sizeOf sh < N →
      (∀ p, reachE sh p = true → (σ (a ++ p)).dirty = false) →
      ∀ x, quiet (σ x) ((updateGo root F sh a σ) x))
    ∧ (∀ root F (cs : List Shape) (a : Addr) (j0 : ℕ) (σ : GSt), sizeOf cs < N →
      (∀ i c p, cs.get? i = some c → reachE c p = true →
        (σ (a ++ [j0 + i] ++ p)).dirty = false) →
      ∀ x, quiet (σ x) ((updateKids root F cs a j0 σ) x)) := by
  intro N
  induction N using Nat.strong_induction_on with
  | _ N IH =>
  have hKq : ∀ root F (cs : List Shape) (a : Addr) (j0 : ℕ) (σ : GSt), sizeOf cs < N →
      (∀ i c p, cs.get? i = some c → reachE c p = true →
        (σ (a ++ [j0 + i] ++ p)).dirty = false) →
      ∀ x, quiet (σ x) ((updateKids root F cs a j0 σ) x) := by
    intro root F cs
    induction cs with
    | nil =>
      intro a j0 σ _ _ x
      unfold updateKids
      exact quiet.qrefl _
    | cons c rest ihrest =>
      intro a j0 σ hsz hcl x
      have hszc : sizeOf c < sizeOf (c :: rest) := by
        simp only [List.cons.sizeOf_spec]
        omega
      have hszrest : sizeOf rest < N := by
        have : sizeOf rest < sizeOf (c :: rest) := by
          simp only [List.cons.sizeOf_spec]
          omega
        omega
      have hG : ∀ y, quiet (σ y) ((updateGo root F c (a ++ [j0]) σ) y) := by
        apply (IH (sizeOf (c :: rest)) hsz).1 root F c (a ++ [j0]) σ hszc
        intro p hp
        have := hcl 0 c p (by rw [List.get?_cons_zero]) hp
        simpa using this
      have hrest : ∀ y, quiet ((updateGo root F c (a ++ [j0]) σ) y)
          ((updateKids root F rest a (j0 + 1) (updateGo root F c (a ++ [j0]) σ)) y) := by
        apply ihrest a (j0 + 1) _ hszrest
        intro i c2 p hg hr
        have hd := hcl (i + 1) c2 p (by simpa using hg) hr
        have hq := (hG (a ++ [j0 + (i + 1)] ++ p)).2.2.2.2.1
        rw [show j0 + 1 + i = j0 + (i + 1) by omega]
        rw [hq]
        exact hd
      unfold updateKids
      exact (hG x).qtrans (hrest x)
  refine ⟨?_, hKq⟩
  intro root F sh a σ hszsh hcl x
  rcases sh with ⟨cfg, cs⟩
  unfold updateGo
  by_cases he : cfg.enabled = true
  case neg =>
    rw [if_neg he]
    exact quiet.qrefl _
  case pos =>
    rw [if_pos he]
    dsimp only
    have h0 : reachE (Shape.node cfg cs) [] = true := by
      simpa [reachE, Shape.cfg] using he
    have hda : (σ a).dirty = false := by
      have := hcl [] h0
      simpa using this
    have hcond : ((upd σ a (fun m => { m with nUpd := m.nUpd + 1 })) a).dirty
        = (σ a).dirty := by rw [upd_same]
    rw [hcond, hda]
    rw [if_neg (by simp : ¬(false = true))]
    have hszcs : sizeOf cs < N := by
      have : sizeOf cs < sizeOf (Shape.node cfg cs) := by
        simp only [Shape.node.sizeOf_spec]
        omega
      omega
    have hkids := hKq root F cs a 0
      (upd σ a (fun m => { m with nUpd := m.nUpd + 1 })) hszcs ?_ x
    · exact (quiet_bump_nUpd σ a x).qtrans hkids
    · intro i c p hg hr
      have hd := hcl (i :: p) (reachE_cons_intro he hg hr)
      have hq := (quiet_bump_nUpd σ a (a ++ [0 + i] ++ p)).2.2.2.2.1
      rw [hq]
      rw [show a ++ [0 + i] ++ p = a ++ (i :: p) from by simp]
      exact hd

/-- C9: calling `update()` on the root twice with no intervening
mutation yields identical computed geometry (the cached
top/left/width/height of every node) after the second call, and the
second call fires none of the redraw notifications (the
`onBeforeRedrawCallback` / protected `onUpdate()` /
`onAfterRedrawCallback` trio) on any node.  The hypothesis is the class
invariant (`dirty = false → layoutReady = true`), which every reachable
state satisfies: `setDirty` clears both flags together and `update`
clears `dirty` only after `resolveLayout` has set `layoutReady`. -/
theorem c9_update_idempotent (root : Shape) (F : ℕ) (σ0 : GSt)
    (hF : 1 ≤ F) (hI : ∀ y, (σ0 y).dirty = false → (σ0 y).layoutReady = true) :
    ∀ x, ((updateAt root F (updateAt root F σ0)) x).cW = ((updateAt root F σ0) x).cW
      ∧ ((updateAt root F (updateAt root F σ0)) x).cH = ((updateAt root F σ0) x).cH
      ∧ ((updateAt root F (updateAt root F σ0)) x).cT = ((updateAt root F σ0) x).cT
      ∧ ((updateAt root F (updateAt root F σ0)) x).cL = ((updateAt root F σ0) x).cL
      ∧ ((updateAt root F (updateAt root F σ0)) x).nBR = ((updateAt root F σ0) x).nBR
      ∧ ((updateAt root F (updateAt root F σ0)) x).nOU = ((updateAt root F σ0) x).nOU
      ∧ ((updateAt root F (updateAt root F σ0)) x).nAR
          = ((updateAt root F σ0) x).nAR := by
  intro x
  have hclean : ∀ p, reachE root p = true → ((updateAt root F σ0) p).dirty = false := by
    intro p hp
    have h4 := ((update_spec_all (sizeOf root + 1)).1 root F root [] σ0
      (by omega)).2.2.2 (atAddr_nil root) hF hI (Or.inl rfl) p hp
    simpa using h4
  have hq := (update_quiet_all (sizeOf root + 1)).1 root F root []
    (updateAt root F σ0) (by omega) (fun p hp => by simpa using hclean p hp) x
  obtain ⟨b1, b2, b3, b4, _, _, _, b8, b9, b10⟩ := hq
  exact ⟨b1, b2, b3, b4, b8, b9, b10⟩

/-- C9 witness tree: a default enabled root. -/
def c9Root : Shape := Shape.node {} []

/-- C9 witness state: every node fresh (dirty, not layout-ready). -/
def c9sigma : GSt := fun _ => {}

theorem c9_update_idempotent_witness :
    1 ≤ 5
    ∧ ((updateAt c9Root 5 (updateAt c9Root 5 c9sigma)) []).nOU
        = ((updateAt c9Root 5 c9sigma) []).nOU
    ∧ ((updateAt c9Root 5 (updateAt c9Root 5 c9sigma)) []).cW
        = ((updateAt c9Root 5 c9sigma) []).cW :=
  ⟨by decide,
    (c9_update_idempotent c9Root 5 c9sigma (by decide) (fun y h => nomatch h)
      []).2.2.2.2.2.1,
    (c9_update_idempotent c9Root 5 c9sigma (by decide) (fun y h => nomatch h) []).1⟩

/-- C10 (amended): after `update()` on the root, every node reachable
through a chain of enabled nodes ends with `dirty = false`.  (The
claim's second half — that skipped nodes keep their cached geometry
unchanged — is refuted by `c10_counterexample`.) -/
theorem c10_update_cleans_enabled_chain (root : Shape) (F : ℕ) (σ0 : GSt)
    (hF : 1 ≤ F) (hI : ∀ y, (σ0 y).dirty = false → (σ0 y).layoutReady = true) :
    ∀ p, reachE root p = true → ((updateAt root F σ0) p).dirty = false := by
  intro p hp
  have h4 := ((update_spec_all (sizeOf root + 1)).1 root F root [] σ0
    (by omega)).2.2.2 (atAddr_nil root) hF hI (Or.inl rfl) p hp
  simpa using h4

/-- C10 counterexample tree: an enabled dirty horizontal flex root with
`flexVerticalAlign = "bottom"` and one disabled (not `ignoreLayout`)
child. -/
def c10Root : Shape :=
  Shape.node { wIn := .num 0, hIn := .num 1, flexMode := .horizontal, vAlign := .bottom }
    [Shape.node { wIn := .num 0, hIn := .num 0, enabled := false } []]

/-- C10 counterexample state: every node fresh. -/
def c10sigma : GSt := fun _ => {}

/-- The disabled child is skipped by the update recursion and the
placement loop (its `dirty` flag stays set), but the cross-axis
alignment pass — whose condition tests `this._enabled`,
`element._ignoreLayout` and the alignment, not `element._enabled` —
still writes its cached top (`null` coerces to 0, so it becomes
`innerHeight - outerHeight = 1`). -/
theorem c10_counterexample :
    (cfgAt c10Root [0]).enabled = false
    ∧ (c10sigma [0]).cT = none
    ∧ (c10sigma [0]).dirty = true
    ∧ ((updateAt c10Root 5 c10sigma) [0]).cT = some 1
    ∧ ((updateAt c10Root 5 c10sigma) [0]).dirty = true := by
  refine ⟨rfl, rfl, rfl, ?_, ?_⟩ <;>
    norm_num +decide [updateAt, updateGo, updateKids, geom, upd, cfgAt, kidsAt,
      parentLayoutAt, growCountAt, widthPure, heightPure, topPure, leftPure,
      widthReadyAt, heightReadyAt, emptyShape, Shape.atAddr, Shape.cfg,
      Shape.children, c10Root, c10sigma, Function.update, List.range_succ]

theorem c10_update_cleans_enabled_chain_witness :
    1 ≤ 5 ∧ reachE c10Root [] = true
    ∧ ((updateAt c10Root 5 c10sigma) []).dirty = false :=
  ⟨by decide, rfl,
    c10_update_cleans_enabled_chain c10Root 5 c10sigma (by decide)
      (fun y h => nomatch h) [] rfl⟩

end Layout
